import Mathlib

/-!
Shallow embedding of the taskgit hunk-selection and patch-reconstruction
engine, and proofs about its specification.

The embedding mirrors the TypeScript sources:
- `DiffService.parseGitDiffOutput` and `DiffOutputFile` with its three
  patch-reconstruction methods (packages/taskgit-core, git-service/diff);
- `CacheStore` (packages/taskgit-core/src/services/cache/cacheService.ts);
- the `add-diff` command's per-file orchestration
  (packages/taskgit-cli/src/commands/addDiffCommand.ts) together with the
  control flow of `exeCommand` (exe-service) and `ErrorHandler.throw`.

JavaScript strings are modelled as `List Char`; the string methods the
sources use (`startsWith`, `endsWith`, `split`, `join`, first-occurrence
`replace`) are embedded as executable functions below.
-/

set_option maxRecDepth 8192

namespace Taskgit

/-- JavaScript strings, modelled as lists of characters. -/
abbrev Str := List Char

/-- JS `s.startsWith(p)`: `p` is an initial segment of `s`. -/
def jsStartsWith : Str → Str → Bool
  | _, [] => true
  | [], _ :: _ => false
  | c :: cs, p :: ps => c == p && jsStartsWith cs ps

/-- JS `s.endsWith(p)`: `p` is a final segment of `s`. -/
def jsEndsWith (s p : Str) : Bool :=
  jsStartsWith s.reverse p.reverse

/-- JS `s.split(sep)` for a one-character separator: always returns at
least one (possibly empty) piece, and a trailing separator yields a
trailing empty piece. -/
def jsSplit (sep : Char) : Str → List Str
  | [] => [[]]
  | c :: cs =>
    if c == sep then [] :: jsSplit sep cs
    else
      match jsSplit sep cs with
      | [] => [[c]]
      | l :: ls => (c :: l) :: ls

/-- JS `parts.join(sep)`. -/
def jsJoin (sep : Str) : List Str → Str
  | [] => []
  | [x] => x
  | x :: y :: xs => x ++ sep ++ jsJoin sep (y :: xs)

/-- JS `s.replace(pat, rep)` with a string pattern: replaces only the
first occurrence of `pat`, scanning left to right. -/
def jsReplaceFirst : Str → Str → Str → Str
  | [], pat, rep => if jsStartsWith [] pat then rep else []
  | c :: cs, pat, rep =>
    if jsStartsWith (c :: cs) pat then rep ++ (c :: cs).drop pat.length
    else c :: jsReplaceFirst cs pat rep

/-- One parsed file of a git diff: the record built by
`DiffService.parseGitDiffOutput` (class `DiffOutputFile`). -/
structure DiffOutputFile where
  file : Str
  fileName : Str
  index : Str
  aFile : Str
  bFile : Str
  hunks : List Str
  acceptedHunks : List Str
  ignoredHunks : List Str
deriving Repr, DecidableEq

/-- JS `lines[i]` out of range evaluates to `undefined`; the template
literals of the reconstruction methods later render that value as the
text "undefined". The parser only stores these three lines, so the
observable value is that text. -/
def undefinedStr : Str := "undefined".data

/-- `lastFile.hunks.push(currentHunk)` guarded by `if (lastFile)`:
appends to the hunk list of the last parsed record, a no-op when no
record exists yet. -/
def pushHunkToLast : List DiffOutputFile → Str → List DiffOutputFile
  | [], _ => []
  | [f], h => [{ f with hunks := f.hunks ++ [h] }]
  | f :: g :: fs, h => f :: pushHunkToLast (g :: fs) h

/-- The `new DiffOutputFile({...})` construction performed when the
parser meets a `diff --git ` line: `file` drops the first occurrence of
the marker text, `fileName` additionally takes the first
space-delimited token and drops the first occurrence of "a/". -/
def mkDiffOutputFile (line i1 i2 i3 : Str) : DiffOutputFile :=
  let f := jsReplaceFirst line "diff --git ".data []
  { file := f
    fileName := jsReplaceFirst ((jsSplit ' ' f).headD []) "a/".data []
    index := i1
    aFile := i2
    bFile := i3
    hunks := []
    acceptedHunks := []
    ignoredHunks := [] }

/-- The line loop of `DiffService.parseGitDiffOutput`, with the parsed
records and the hunk being accumulated as explicit state. On a
`diff --git` line the source reads `lines[i+1..i+3]` and advances `i`
by three extra positions; the four match arms below spell out that
behaviour for inputs shorter than three remaining lines. -/
def parseLines : List Str → List DiffOutputFile → Str → List DiffOutputFile
  | [], parsedFiles, currentHunk => pushHunkToLast parsedFiles currentHunk
  | line :: rest, parsedFiles, currentHunk =>
    if jsStartsWith line "diff --git".data then
      match rest with
      | r1 :: r2 :: r3 :: rest' =>
        parseLines rest'
          (pushHunkToLast parsedFiles currentHunk ++ [mkDiffOutputFile line r1 r2 r3]) []
      | [r1, r2] =>
        parseLines []
          (pushHunkToLast parsedFiles currentHunk ++ [mkDiffOutputFile line r1 r2 undefinedStr]) []
      | [r1] =>
        parseLines []
          (pushHunkToLast parsedFiles currentHunk ++
            [mkDiffOutputFile line r1 undefinedStr undefinedStr]) []
      | [] =>
        parseLines []
          (pushHunkToLast parsedFiles currentHunk ++
            [mkDiffOutputFile line undefinedStr undefinedStr undefinedStr]) []
    else if jsStartsWith line "@@".data then
      parseLines rest (pushHunkToLast parsedFiles currentHunk) line
    else
      parseLines rest parsedFiles (currentHunk ++ '\n' :: line)

/-- `DiffService.parseGitDiffOutput` applied to the raw diff text: split
on newlines, run the line loop, then drop zero-length hunk strings. -/
def parseGitDiffOutput (diffOutput : Str) : List DiffOutputFile :=
  (parseLines (jsSplit '\n' diffOutput) [] []).map
    (fun f => { f with hunks := f.hunks.filter (fun h => decide (0 < h.length)) })

/-- The patch template shared by the three reconstruction methods of
`DiffOutputFile`: marker line, the three stored header lines, the
selected hunks joined with a newline, and a final newline appended when
the text does not already end with one. -/
def patchDocument (f : DiffOutputFile) (hs : List Str) : Str :=
  let patch := "diff --git ".data ++ f.file
    ++ '\n' :: f.index
    ++ '\n' :: f.aFile
    ++ '\n' :: f.bFile
    ++ '\n' :: jsJoin ['\n'] hs
  if jsEndsWith patch ['\n'] then patch else patch ++ ['\n']

/-- `DiffOutputFile.getTotalDiffPatch`: all hunks; declared to return a
string, with no empty-subset check. -/
def getTotalDiffPatch (f : DiffOutputFile) : Str :=
  patchDocument f f.hunks

/-- `DiffOutputFile.getAcceptedDiffPatch`: returns `null` (here `none`)
when no hunk was accepted. -/
def getAcceptedDiffPatch (f : DiffOutputFile) : Option Str :=
  if f.acceptedHunks.length = 0 then none else some (patchDocument f f.acceptedHunks)

/-- `DiffOutputFile.getIgnoredDiffPatch`: returns `null` (here `none`)
when no hunk was ignored. -/
def getIgnoredDiffPatch (f : DiffOutputFile) : Option Str :=
  if f.ignoredHunks.length = 0 then none else some (patchDocument f f.ignoredHunks)

/-! ## Well-formed diff texts

The spec (§6) fixes the input format: per-file blocks, each a
`diff --git ` line, exactly three header lines, then zero or more hunk
blocks introduced by `@@` lines. The structures below describe such a
text abstractly; `renderDiffText` produces the concrete text, each line
terminated by a newline, as git emits it. -/

/-- One hunk of the input text: its `@@` marker line and the following
content lines. -/
structure RawHunk where
  marker : Str
  body : List Str
deriving Repr, DecidableEq

/-- One per-file block of the input text. -/
structure RawFileBlock where
  pathPair : Str
  indexLine : Str
  aFileLine : Str
  bFileLine : Str
  hunks : List RawHunk
deriving Repr, DecidableEq

/-- Well-formedness of a hunk: the marker line starts with `@@`, and no
line contains a newline, continues a new file, or opens a new hunk. -/
def RawHunk.wfb (h : RawHunk) : Bool :=
  jsStartsWith h.marker "@@".data && !h.marker.contains '\n' &&
    h.body.all (fun l =>
      !l.contains '\n' && !jsStartsWith l "@@".data && !jsStartsWith l "diff --git".data)

/-- Well-formedness of a file block: single-line headers and well-formed
hunks. -/
def RawFileBlock.wfb (b : RawFileBlock) : Bool :=
  !b.pathPair.contains '\n' && !b.indexLine.contains '\n' && !b.aFileLine.contains '\n' &&
    !b.bFileLine.contains '\n' && b.hunks.all RawHunk.wfb

/-- The lines of a hunk as they appear in the text. -/
def RawHunk.textLines (h : RawHunk) : List Str :=
  h.marker :: h.body

/-- The lines of a file block as they appear in the text. -/
def RawFileBlock.textLines (b : RawFileBlock) : List Str :=
  ("diff --git ".data ++ b.pathPair) :: b.indexLine :: b.aFileLine :: b.bFileLine ::
    (b.hunks.map RawHunk.textLines).flatten

/-- Concatenate lines, terminating each with a newline. -/
def renderLines (ls : List Str) : Str :=
  (ls.map (fun l => l ++ ['\n'])).flatten

/-- The source text of one file block. -/
def RawFileBlock.render (b : RawFileBlock) : Str :=
  renderLines b.textLines

/-- The whole diff text for a sequence of file blocks. -/
def renderDiffText (bs : List RawFileBlock) : Str :=
  renderLines ((bs.map RawFileBlock.textLines).flatten)

/-- The trailing-newline normalization rule of §4.2/§6: the document is
terminated by exactly one trailing newline. `normTrail s` is `s` with
its trailing newlines replaced by a single one. -/
def normTrail (s : Str) : Str :=
  (s.reverse.dropWhile (fun c => c == '\n')).reverse ++ ['\n']

/-- The hunk string the parser accumulates for a hunk of the input: the
marker line followed by each body line with its separating newline. -/
def hunkContent (h : RawHunk) : Str :=
  h.marker ++ (h.body.map (fun l => '\n' :: l)).flatten

/-! ## Basic lemmas about the string primitives -/

theorem jsStartsWith_append (p t : Str) : jsStartsWith (p ++ t) p = true := by
  induction p with
  | nil => cases t <;> rfl
  | cons c cs ih => simp [jsStartsWith, ih]

theorem jsStartsWith_nil (s : Str) : jsStartsWith s [] = true := by
  cases s <;> rfl

theorem jsReplaceFirst_append (p t r : Str) (hp : p ≠ []) :
    jsReplaceFirst (p ++ t) p r = r ++ t := by
  match p, hp with
  | c :: cs, _ =>
    show jsReplaceFirst (c :: (cs ++ t)) (c :: cs) r = r ++ t
    rw [jsReplaceFirst]
    have hs : jsStartsWith (c :: (cs ++ t)) (c :: cs) = true := by
      have := jsStartsWith_append (c :: cs) t
      simpa using this
    simp only [hs, if_pos]
    simp [List.drop_left']

theorem jsSplit_ne_nil (sep : Char) (s : Str) : jsSplit sep s ≠ [] := by
  cases s with
  | nil => simp [jsSplit]
  | cons c cs =>
    rw [jsSplit]
    split
    · simp
    · rcases h : jsSplit sep cs with _ | ⟨l, ls⟩ <;> simp

theorem jsSplit_append (sep : Char) (x y : Str) :
    jsSplit sep (x ++ sep :: y) = jsSplit sep x ++ jsSplit sep y := by
  induction x with
  | nil =>
    show jsSplit sep (sep :: y) = jsSplit sep [] ++ jsSplit sep y
    rw [jsSplit]
    simp [jsSplit]
  | cons c cs ih =>
    show jsSplit sep (c :: (cs ++ sep :: y)) = jsSplit sep (c :: cs) ++ jsSplit sep y
    rw [jsSplit, jsSplit]
    by_cases hc : c == sep
    · simp [hc, ih]
    · simp only [hc, Bool.false_eq_true, if_false, ih]
      rcases h : jsSplit sep cs with _ | ⟨l, ls⟩
      · exact absurd h (jsSplit_ne_nil sep cs)
      · simp

theorem jsSplit_no_sep (sep : Char) (s : Str) (h : sep ∉ s) : jsSplit sep s = [s] := by
  induction s with
  | nil => rfl
  | cons c cs ih =>
    rw [jsSplit]
    have hc : (c == sep) = false := by
      simp only [beq_eq_false_iff_ne]
      intro he; exact h (he ▸ List.mem_cons_self c cs)
    simp only [hc, Bool.false_eq_true, if_false]
    rw [ih (fun hm => h (List.mem_cons_of_mem c hm))]

theorem jsSplit_renderLines (ls : List Str) (h : ∀ l ∈ ls, '\n' ∉ l) :
    jsSplit '\n' (renderLines ls) = ls ++ [[]] := by
  induction ls with
  | nil => rfl
  | cons l ls ih =>
    have : renderLines (l :: ls) = l ++ '\n' :: renderLines ls := by
      simp [renderLines]
    rw [this, jsSplit_append, jsSplit_no_sep '\n' l (h l (List.mem_cons_self l ls)),
      ih (fun x hx => h x (List.mem_cons_of_mem l hx))]
    simp

theorem jsJoin_jsSplit (sep : Char) (s : Str) : jsJoin [sep] (jsSplit sep s) = s := by
  induction s with
  | nil => rfl
  | cons c cs ih =>
    rw [jsSplit]
    by_cases hc : c == sep
    · have : c = sep := by exact beq_iff_eq.mp hc
      subst this
      simp only [hc, if_pos]
      rcases h : jsSplit c cs with _ | ⟨l, ls⟩
      · exact absurd h (jsSplit_ne_nil c cs)
      · rw [jsJoin]
        rw [h] at ih
        simpa using ih
    · simp only [hc, Bool.false_eq_true, if_false]
      rcases h : jsSplit sep cs with _ | ⟨l, ls⟩
      · exact absurd h (jsSplit_ne_nil sep cs)
      · rw [h] at ih
        cases ls with
        | nil => simpa [jsJoin] using congrArg (c :: ·) ih
        | cons m ms =>
          rw [jsJoin]
          rw [jsJoin] at ih
          simpa using congrArg (c :: ·) ih

theorem jsSplit_mem_no_sep (sep : Char) (s : Str) : ∀ l ∈ jsSplit sep s, sep ∉ l := by
  induction s with
  | nil => simp [jsSplit]
  | cons c cs ih =>
    rw [jsSplit]
    by_cases hc : c == sep
    · simp only [hc, if_pos]
      intro l hl
      rcases List.mem_cons.mp hl with h | h
      · subst h; simp
      · exact ih l h
    · simp only [hc, Bool.false_eq_true, if_false]
      rcases h : jsSplit sep cs with _ | ⟨l, ls⟩
      · exact absurd h (jsSplit_ne_nil sep cs)
      · intro m hm
        rcases List.mem_cons.mp hm with hmm | hmm
        · subst hmm
          have hcl : sep ∉ l := ih l (h ▸ List.mem_cons_self l ls)
          have hcs : c ≠ sep := by simpa [beq_eq_false_iff_ne] using hc
          simp [hcs.symm]
          intro hx
          exact absurd hx hcl
        · exact ih m (h ▸ List.mem_cons_of_mem l hmm)

theorem normTrail_append_newline (s : Str) : normTrail (s ++ ['\n']) = normTrail s := by
  simp [normTrail]

theorem normTrail_patchDocument (f : DiffOutputFile) (hs : List Str) :
    normTrail (patchDocument f hs) =
      normTrail ("diff --git ".data ++ f.file ++ '\n' :: f.index ++ '\n' :: f.aFile
        ++ '\n' :: f.bFile ++ '\n' :: jsJoin ['\n'] hs) := by
  rw [patchDocument]
  split
  · rfl
  · rw [normTrail_append_newline]

/-! ## Characterizing the line loop on well-formed input -/

theorem dgit_data : "diff --git".data = ['d', 'i', 'f', 'f', ' ', '-', '-', 'g', 'i', 't'] := rfl

theorem dgitsp_data : "diff --git ".data = "diff --git".data ++ [' '] := rfl

theorem atat_data : "@@".data = ['@', '@'] := rfl

theorem marker_not_dgit {m : Str} (h : jsStartsWith m "@@".data = true) :
    jsStartsWith m "diff --git".data = false := by
  rw [atat_data] at h
  rw [dgit_data]
  cases m with
  | nil => simp [jsStartsWith] at h
  | cons c cs =>
    have hc : c = '@' := by
      rw [jsStartsWith, Bool.and_eq_true] at h
      exact beq_iff_eq.mp h.1
    subst hc
    simp [jsStartsWith]

theorem dgitline_starts {path : Str} :
    jsStartsWith ("diff --git ".data ++ path) "diff --git".data = true := by
  rw [dgitsp_data, List.append_assoc]
  exact jsStartsWith_append _ _

theorem parseLines_step_other (line : Str) (rest : List Str) (files : List DiffOutputFile)
    (cur : Str) (h1 : jsStartsWith line "diff --git".data = false)
    (h2 : jsStartsWith line "@@".data = false) :
    parseLines (line :: rest) files cur = parseLines rest files (cur ++ '\n' :: line) := by
  rw [parseLines.eq_def]
  simp only [h1, h2, Bool.false_eq_true, if_false]

theorem parseLines_step_marker (line : Str) (rest : List Str) (files : List DiffOutputFile)
    (cur : Str) (h1 : jsStartsWith line "diff --git".data = false)
    (h2 : jsStartsWith line "@@".data = true) :
    parseLines (line :: rest) files cur = parseLines rest (pushHunkToLast files cur) line := by
  rw [parseLines.eq_def]
  simp only [h1, h2, Bool.false_eq_true, if_false, if_true]

theorem parseLines_step_dgit (line r1 r2 r3 : Str) (rest : List Str)
    (files : List DiffOutputFile) (cur : Str)
    (h1 : jsStartsWith line "diff --git".data = true) :
    parseLines (line :: r1 :: r2 :: r3 :: rest) files cur =
      parseLines rest (pushHunkToLast files cur ++ [mkDiffOutputFile line r1 r2 r3]) [] := by
  rw [parseLines.eq_def]
  simp only [h1, if_true]

/-- Content lines neither open a file nor open a hunk, so the loop only
extends the hunk in progress. -/
theorem parseLines_body (ls : List Str)
    (hls : ∀ l ∈ ls, jsStartsWith l "diff --git".data = false ∧
      jsStartsWith l "@@".data = false) :
    ∀ rest files cur, parseLines (ls ++ rest) files cur =
      parseLines rest files (cur ++ (ls.map (fun l => '\n' :: l)).flatten) := by
  induction ls with
  | nil => intro rest files cur; simp
  | cons l ls ih =>
    intro rest files cur
    have hl := hls l (List.mem_cons_self l ls)
    show parseLines (l :: (ls ++ rest)) files cur = _
    rw [parseLines_step_other l _ files cur hl.1 hl.2]
    rw [ih (fun x hx => hls x (List.mem_cons_of_mem l hx))]
    simp

/-- Absorbing one well-formed hunk: its marker flushes the hunk in
progress and its lines accumulate into `hunkContent`. -/
theorem parseLines_hunk (h : RawHunk) (hwf : h.wfb = true) :
    ∀ rest files cur, parseLines (h.textLines ++ rest) files cur =
      parseLines rest (pushHunkToLast files cur) (hunkContent h) := by
  rw [RawHunk.wfb, Bool.and_eq_true, Bool.and_eq_true] at hwf
  intro rest files cur
  show parseLines (h.marker :: (h.body ++ rest)) files cur = _
  rw [parseLines_step_marker h.marker _ files cur (marker_not_dgit hwf.1.1) hwf.1.1]
  rw [parseLines_body h.body ?hbody rest (pushHunkToLast files cur) h.marker]
  · rfl
  case hbody =>
    intro l hl
    have := List.all_eq_true.mp hwf.2 l hl
    rw [Bool.and_eq_true, Bool.and_eq_true] at this
    exact ⟨by simpa using this.2, by simpa using this.1.2⟩

/-- The parsed-record/hunk-in-progress state after a run of hunks. -/
def absorbHunks : List DiffOutputFile → Str → List RawHunk → List DiffOutputFile × Str
  | files, cur, [] => (files, cur)
  | files, cur, h :: hs => absorbHunks (pushHunkToLast files cur) (hunkContent h) hs

theorem parseLines_hunks (hs : List RawHunk) (hwf : ∀ h ∈ hs, h.wfb = true) :
    ∀ rest files cur, parseLines ((hs.map RawHunk.textLines).flatten ++ rest) files cur =
      parseLines rest (absorbHunks files cur hs).1 (absorbHunks files cur hs).2 := by
  induction hs with
  | nil => intro rest files cur; simp [absorbHunks]
  | cons h hs ih =>
    intro rest files cur
    have : ((h :: hs).map RawHunk.textLines).flatten ++ rest =
        h.textLines ++ ((hs.map RawHunk.textLines).flatten ++ rest) := by simp
    rw [this, parseLines_hunk h (hwf h (List.mem_cons_self h hs)),
      ih (fun x hx => hwf x (List.mem_cons_of_mem h hx))]
    rfl

/-- The record created for a block's `diff --git` line, before any hunks
are flushed into it. -/
def record0 (b : RawFileBlock) : DiffOutputFile :=
  mkDiffOutputFile ("diff --git ".data ++ b.pathPair) b.indexLine b.aFileLine b.bFileLine

theorem record0_file (b : RawFileBlock) : (record0 b).file = b.pathPair := by
  rw [record0, mkDiffOutputFile]
  exact jsReplaceFirst_append _ _ _ (by rw [dgitsp_data, dgit_data]; simp)

theorem record0_hunks (b : RawFileBlock) : (record0 b).hunks = [] := rfl

/-- Absorbing a whole block: the hunk in progress is flushed to the
previous record, a new record is created from the four header lines, and
the block's hunks are absorbed into it. -/
theorem parseLines_block (b : RawFileBlock) (hwf : b.wfb = true) :
    ∀ rest files cur, parseLines (b.textLines ++ rest) files cur =
      parseLines rest
        (absorbHunks (pushHunkToLast files cur ++ [record0 b]) [] b.hunks).1
        (absorbHunks (pushHunkToLast files cur ++ [record0 b]) [] b.hunks).2 := by
  rw [RawFileBlock.wfb] at hwf
  simp only [Bool.and_eq_true] at hwf
  intro rest files cur
  show parseLines (("diff --git ".data ++ b.pathPair) :: b.indexLine :: b.aFileLine ::
    b.bFileLine :: ((b.hunks.map RawHunk.textLines).flatten ++ rest)) files cur = _
  rw [parseLines_step_dgit _ _ _ _ _ files cur dgitline_starts]
  rw [parseLines_hunks b.hunks (fun h hh => List.all_eq_true.mp hwf.2 h hh)]
  rfl

/-- Iterating `parseLines_block` over a list of blocks. -/
def foldBlocks : List DiffOutputFile → Str → List RawFileBlock → List DiffOutputFile × Str
  | files, cur, [] => (files, cur)
  | files, cur, b :: bs =>
    foldBlocks (absorbHunks (pushHunkToLast files cur ++ [record0 b]) [] b.hunks).1
      (absorbHunks (pushHunkToLast files cur ++ [record0 b]) [] b.hunks).2 bs

theorem parseLines_blocks (bs : List RawFileBlock) (hwf : ∀ b ∈ bs, b.wfb = true) :
    ∀ rest files cur,
      parseLines (((bs.map RawFileBlock.textLines).flatten) ++ rest) files cur =
        parseLines rest (foldBlocks files cur bs).1 (foldBlocks files cur bs).2 := by
  induction bs with
  | nil => intro rest files cur; simp [foldBlocks]
  | cons b bs ih =>
    intro rest files cur
    have : (((b :: bs).map RawFileBlock.textLines).flatten) ++ rest =
        b.textLines ++ (((bs.map RawFileBlock.textLines).flatten) ++ rest) := by simp
    rw [this, parseLines_block b (hwf b (List.mem_cons_self b bs)),
      ih (fun x hx => hwf x (List.mem_cons_of_mem b hx))]
    rfl

/-- The final line produced by splitting a newline-terminated text is
empty: it extends the hunk in progress by a bare newline, and the end of
input flushes it. -/
theorem parseLines_lastLine (files : List DiffOutputFile) (cur : Str) :
    parseLines [[]] files cur = pushHunkToLast files (cur ++ ['\n']) := by
  rw [parseLines_step_other [] [] files cur (by rw [dgit_data]; rfl) (by rw [atat_data]; rfl)]
  rfl

/-! ## The parsed records of a well-formed diff text -/

theorem pushHunkToLast_cons (g : DiffOutputFile) (l : List DiffOutputFile) (h : Str)
    (hl : l ≠ []) : pushHunkToLast (g :: l) h = g :: pushHunkToLast l h := by
  cases l with
  | nil => exact absurd rfl hl
  | cons x xs => rfl

theorem pushHunkToLast_concat (files : List DiffOutputFile) (f : DiffOutputFile) (h : Str) :
    pushHunkToLast (files ++ [f]) h = files ++ [{ f with hunks := f.hunks ++ [h] }] := by
  induction files with
  | nil => rfl
  | cons g gs ih =>
    rw [List.cons_append, pushHunkToLast_cons g (gs ++ [f]) h (by simp), ih]
    rfl

/-- `absorbHunks` restricted to the record the hunks flush into. -/
def recordAbsorb : DiffOutputFile → Str → List RawHunk → DiffOutputFile × Str
  | f, cur, [] => (f, cur)
  | f, cur, h :: hs => recordAbsorb { f with hunks := f.hunks ++ [cur] } (hunkContent h) hs

theorem absorbHunks_concat (hs : List RawHunk) :
    ∀ (files : List DiffOutputFile) (f : DiffOutputFile) (cur : Str),
      absorbHunks (files ++ [f]) cur hs =
        (files ++ [(recordAbsorb f cur hs).1], (recordAbsorb f cur hs).2) := by
  induction hs with
  | nil => intro files f cur; rfl
  | cons h hs ih =>
    intro files f cur
    rw [absorbHunks, pushHunkToLast_concat, ih]
    rfl

/-- Append a newline to the final element; for an empty list the lone
flushed hunk is a bare newline. This is the shape of the last parsed
record's hunk list. -/
def appendNlLast : List Str → List Str
  | [] => [['\n']]
  | [h] => [h ++ ['\n']]
  | h :: h' :: t => h :: appendNlLast (h' :: t)

theorem recordAbsorb_flush (hs : List RawHunk) :
    ∀ (f : DiffOutputFile) (cur : Str),
      { (recordAbsorb f cur hs).1 with
          hunks := (recordAbsorb f cur hs).1.hunks ++ [(recordAbsorb f cur hs).2] } =
        { f with hunks := f.hunks ++ cur :: hs.map hunkContent } := by
  induction hs with
  | nil => intro f cur; rfl
  | cons h hs ih =>
    intro f cur
    rw [recordAbsorb, ih]
    simp

theorem recordAbsorb_flushNl (hs : List RawHunk) :
    ∀ (f : DiffOutputFile) (cur : Str),
      { (recordAbsorb f cur hs).1 with
          hunks := (recordAbsorb f cur hs).1.hunks ++ [(recordAbsorb f cur hs).2 ++ ['\n']] } =
        { f with hunks := f.hunks ++ appendNlLast (cur :: hs.map hunkContent) } := by
  induction hs with
  | nil => intro f cur; rfl
  | cons h hs ih =>
    intro f cur
    rw [recordAbsorb, ih]
    cases hs <;> simp [appendNlLast]

/-- Expected parsed record for a block that another block follows,
before zero-length hunks are dropped. -/
def preRecord (b : RawFileBlock) : DiffOutputFile :=
  { record0 b with hunks := [] :: b.hunks.map hunkContent }

/-- Expected parsed record for the final block, before zero-length hunks
are dropped: the trailing empty split piece appends a newline to the
hunk flushed at end of input. -/
def preLast (b : RawFileBlock) : DiffOutputFile :=
  { record0 b with hunks := appendNlLast ([] :: b.hunks.map hunkContent) }

/-- The record list produced by the line loop, before the zero-length
filter. -/
def expectedPre : List RawFileBlock → List DiffOutputFile
  | [] => []
  | [b] => [preLast b]
  | b :: b' :: bs => preRecord b :: expectedPre (b' :: bs)

theorem foldBlocks_final (bs : List RawFileBlock) :
    ∀ (b : RawFileBlock) (files : List DiffOutputFile) (cur : Str),
      pushHunkToLast (foldBlocks files cur (b :: bs)).1
          ((foldBlocks files cur (b :: bs)).2 ++ ['\n']) =
        pushHunkToLast files cur ++ expectedPre (b :: bs) := by
  induction bs with
  | nil =>
    intro b files cur
    rw [foldBlocks, absorbHunks_concat, foldBlocks]
    simp only
    rw [pushHunkToLast_concat, recordAbsorb_flushNl]
    rfl
  | cons b' bs ih =>
    intro b files cur
    rw [foldBlocks, absorbHunks_concat]
    simp only
    rw [ih b' _ _, pushHunkToLast_concat, recordAbsorb_flush]
    show pushHunkToLast files cur ++ [preRecord b] ++ expectedPre (b' :: bs) = _
    rw [expectedPre, List.append_assoc]
    rfl

theorem wf_textLines_no_newline (b : RawFileBlock) (hwf : b.wfb = true) :
    ∀ l ∈ b.textLines, '\n' ∉ l := by
  rw [RawFileBlock.wfb] at hwf
  simp only [Bool.and_eq_true] at hwf
  intro l hl
  rw [RawFileBlock.textLines] at hl
  rcases List.mem_cons.mp hl with h | hl
  · subst h
    intro hmem
    rcases List.mem_append.mp hmem with h | h
    · rw [dgitsp_data, dgit_data] at h; simp at h
    · have hn : '\n' ∉ b.pathPair := by simpa using hwf.1.1.1.1
      exact hn h
  rcases List.mem_cons.mp hl with h | hl
  · subst h; simpa using hwf.1.1.1.2
  rcases List.mem_cons.mp hl with h | hl
  · subst h; simpa using hwf.1.1.2
  rcases List.mem_cons.mp hl with h | hl
  · subst h; simpa using hwf.1.2
  · rw [List.mem_flatten] at hl
    obtain ⟨ls, hls, hmem⟩ := hl
    rw [List.mem_map] at hls
    obtain ⟨hk, hhk, rfl⟩ := hls
    have hk_wf := List.all_eq_true.mp hwf.2 hk hhk
    rw [RawHunk.wfb, Bool.and_eq_true, Bool.and_eq_true] at hk_wf
    rw [RawHunk.textLines] at hmem
    rcases List.mem_cons.mp hmem with h | h
    · subst h; simpa using hk_wf.1.2
    · have := List.all_eq_true.mp hk_wf.2 l h
      rw [Bool.and_eq_true, Bool.and_eq_true] at this
      simpa using this.1.1

/-- The line loop on the rendered text of well-formed blocks, before the
zero-length filter. -/
theorem parseLines_renderDiffText (bs : List RawFileBlock) (hwf : ∀ b ∈ bs, b.wfb = true) :
    parseLines (jsSplit '\n' (renderDiffText bs)) [] [] = expectedPre bs := by
  rw [renderDiffText, jsSplit_renderLines]
  · rw [parseLines_blocks bs hwf [[]] [] [], parseLines_lastLine]
    cases bs with
    | nil => rfl
    | cons b bs' => rw [foldBlocks_final bs' b [] []]; rfl
  · intro l hl
    rw [List.mem_flatten] at hl
    obtain ⟨ls, hls, hmem⟩ := hl
    rw [List.mem_map] at hls
    obtain ⟨b, hb, rfl⟩ := hls
    exact wf_textLines_no_newline b (hwf b hb) l hmem

/-! ## Reconstruction of the rendered block text -/

theorem renderLines_nil : renderLines [] = [] := rfl

theorem renderLines_cons (l : Str) (ls : List Str) :
    renderLines (l :: ls) = l ++ '\n' :: renderLines ls := by
  simp [renderLines]

theorem renderLines_append (xs ys : List Str) :
    renderLines (xs ++ ys) = renderLines xs ++ renderLines ys := by
  simp [renderLines]

theorem jsJoin_single (sep x : Str) : jsJoin sep [x] = x := rfl

theorem jsJoin_cons_cons (sep x y : Str) (t : List Str) :
    jsJoin sep (x :: y :: t) = x ++ sep ++ jsJoin sep (y :: t) := rfl

theorem nlFlat (body : List Str) :
    (body.map (fun l => '\n' :: l)).flatten ++ ['\n'] = '\n' :: renderLines body := by
  induction body with
  | nil => rfl
  | cons l t ih =>
    rw [renderLines_cons]
    simp only [List.map_cons, List.flatten_cons, List.cons_append, List.append_assoc, ih]

theorem hunk_render (h : RawHunk) : hunkContent h ++ ['\n'] = renderLines h.textLines := by
  rw [RawHunk.textLines, renderLines_cons, hunkContent, List.append_assoc, nlFlat]

theorem join_hunkContents (x : RawHunk) (hs : List RawHunk) :
    jsJoin ['\n'] ((x :: hs).map hunkContent) ++ ['\n'] =
      renderLines (((x :: hs).map RawHunk.textLines).flatten) := by
  induction hs generalizing x with
  | nil => simp only [List.map_cons, List.map_nil, jsJoin_single, List.flatten_cons,
      List.flatten_nil, List.append_nil, hunk_render]
  | cons y t ih =>
    have hy := ih y
    simp only [List.map_cons] at hy ⊢
    rw [jsJoin_cons_cons, List.flatten_cons, renderLines_append, ← hy, ← hunk_render]
    simp [List.append_assoc]

theorem appendNlLast_cons_cons (x y : Str) (t : List Str) :
    appendNlLast (x :: y :: t) = x :: appendNlLast (y :: t) := rfl

theorem jsJoin_appendNlLast (x : Str) (ls : List Str) :
    jsJoin ['\n'] (appendNlLast (x :: ls)) = jsJoin ['\n'] (x :: ls) ++ ['\n'] := by
  induction ls generalizing x with
  | nil => rfl
  | cons y t ih =>
    rw [appendNlLast_cons_cons]
    rcases hsh : appendNlLast (y :: t) with _ | ⟨z, zs⟩
    · cases t <;> simp [appendNlLast] at hsh
    · rw [jsJoin_cons_cons, ← hsh, ih y, jsJoin_cons_cons]
      simp [List.append_assoc]

theorem hunkContent_pos (h : RawHunk) (hwf : h.wfb = true) : 0 < (hunkContent h).length := by
  rw [RawHunk.wfb, Bool.and_eq_true, Bool.and_eq_true] at hwf
  have hm := hwf.1.1
  rw [atat_data] at hm
  cases he : h.marker with
  | nil => rw [he] at hm; simp [jsStartsWith] at hm
  | cons c cs => simp [hunkContent, he]

theorem appendNlLast_pos (ls : List Str) (h : ∀ x ∈ ls, 0 < x.length) :
    ∀ y ∈ appendNlLast ls, 0 < y.length := by
  induction ls with
  | nil => intro y hy; simp only [appendNlLast, List.mem_singleton] at hy; simp [hy]
  | cons x t ih =>
    cases t with
    | nil =>
      intro y hy
      simp only [appendNlLast, List.mem_singleton] at hy
      simp [hy]
    | cons z zs =>
      intro y hy
      rw [appendNlLast_cons_cons] at hy
      rcases List.mem_cons.mp hy with hyx | hmem
      · exact hyx ▸ h x (List.mem_cons_self x _)
      · exact ih (fun a ha => h a (List.mem_cons_of_mem x ha)) y hmem

theorem filter_cons_nil (l : List Str) (h : ∀ x ∈ l, 0 < x.length) :
    (([] : Str) :: l).filter (fun s => decide (0 < s.length)) = l := by
  rw [List.filter_cons]
  have h0 : (decide (0 < List.length ([] : Str))) = false := rfl
  simp only [h0, Bool.false_eq_true, if_false]
  exact List.filter_eq_self.mpr (fun a ha => by simpa using h a ha)

theorem filter_appendNlLast (ls : List Str) (h : ∀ x ∈ ls, 0 < x.length) :
    (appendNlLast (([] : Str) :: ls)).filter (fun s => decide (0 < s.length)) =
      appendNlLast ls := by
  cases ls with
  | nil => rfl
  | cons c cs =>
    rw [appendNlLast_cons_cons, List.filter_cons]
    have h0 : (decide (0 < List.length ([] : Str))) = false := rfl
    simp only [h0, Bool.false_eq_true, if_false]
    exact List.filter_eq_self.mpr
      (fun a ha => by simpa using appendNlLast_pos (c :: cs) h a ha)

theorem record0_index (b : RawFileBlock) : (record0 b).index = b.indexLine := rfl

theorem record0_aFile (b : RawFileBlock) : (record0 b).aFile = b.aFileLine := rfl

theorem record0_bFile (b : RawFileBlock) : (record0 b).bFile = b.bFileLine := rfl

theorem render_headers (b : RawFileBlock) :
    b.render = "diff --git ".data ++ b.pathPair ++ '\n' :: b.indexLine ++ '\n' :: b.aFileLine
      ++ '\n' :: b.bFileLine ++ '\n' ::
        renderLines ((b.hunks.map RawHunk.textLines).flatten) := by
  rw [RawFileBlock.render, RawFileBlock.textLines, renderLines_cons, renderLines_cons,
    renderLines_cons, renderLines_cons]
  simp [List.append_assoc]

theorem normTrail_patch_record0 (b : RawFileBlock) (hs : List Str) :
    normTrail (patchDocument (record0 b) hs) =
      normTrail ("diff --git ".data ++ b.pathPair ++ '\n' :: b.indexLine
        ++ '\n' :: b.aFileLine ++ '\n' :: b.bFileLine ++ '\n' :: jsJoin ['\n'] hs) := by
  rw [normTrail_patchDocument, record0_file, record0_index, record0_aFile, record0_bFile]

theorem normTrail_patch_nonlast (b : RawFileBlock) :
    normTrail (patchDocument (record0 b) (b.hunks.map hunkContent)) =
      normTrail b.render := by
  rw [normTrail_patch_record0]
  cases hh : b.hunks with
  | nil =>
    rw [render_headers, hh]
    simp [renderLines_nil, jsJoin]
  | cons x hs =>
    rw [← normTrail_append_newline, render_headers, hh, List.map_cons]
    rw [show ("diff --git ".data ++ b.pathPair ++ '\n' :: b.indexLine ++ '\n' :: b.aFileLine
      ++ '\n' :: b.bFileLine
      ++ '\n' :: jsJoin ['\n'] (hunkContent x :: List.map hunkContent hs)) ++ ['\n'] =
      "diff --git ".data ++ b.pathPair ++ '\n' :: b.indexLine ++ '\n' :: b.aFileLine
      ++ '\n' :: b.bFileLine
      ++ '\n' :: (jsJoin ['\n'] (List.map hunkContent (x :: hs)) ++ ['\n']) by
        simp [List.append_assoc]]
    rw [join_hunkContents x hs]

theorem normTrail_patch_last (b : RawFileBlock) :
    normTrail (patchDocument (record0 b) (appendNlLast (b.hunks.map hunkContent))) =
      normTrail b.render := by
  rw [normTrail_patch_record0]
  cases hh : b.hunks with
  | nil =>
    rw [render_headers, hh]
    simp only [List.map_nil, List.flatten_nil, renderLines_nil, List.append_nil]
    rw [show appendNlLast ([] : List Str) = [['\n']] from rfl, jsJoin_single]
    rw [show "diff --git ".data ++ b.pathPair ++ '\n' :: b.indexLine ++ '\n' :: b.aFileLine
      ++ '\n' :: b.bFileLine ++ '\n' :: ['\n'] =
      ("diff --git ".data ++ b.pathPair ++ '\n' :: b.indexLine ++ '\n' :: b.aFileLine
      ++ '\n' :: b.bFileLine ++ ['\n']) ++ ['\n'] by simp [List.append_assoc]]
    rw [normTrail_append_newline]
  | cons x hs =>
    rw [render_headers, hh, List.map_cons, jsJoin_appendNlLast]
    rw [← List.map_cons hunkContent x hs, join_hunkContents x hs]

theorem getTotal_update (f : DiffOutputFile) (X : List Str) :
    getTotalDiffPatch { f with hunks := X } = patchDocument f X := rfl

theorem patchDocument_preLast (b : RawFileBlock) (hs : List Str) :
    patchDocument (preLast b) hs = patchDocument (record0 b) hs := rfl

theorem patchDocument_preRecord (b : RawFileBlock) (hs : List Str) :
    patchDocument (preRecord b) hs = patchDocument (record0 b) hs := rfl

theorem preLast_hunks (b : RawFileBlock) :
    (preLast b).hunks = appendNlLast (([] : Str) :: b.hunks.map hunkContent) := rfl

theorem preRecord_hunks (b : RawFileBlock) :
    (preRecord b).hunks = ([] : Str) :: b.hunks.map hunkContent := rfl

theorem getTotal_filter_preLast (b : RawFileBlock)
    (hcontent : ∀ x ∈ b.hunks.map hunkContent, 0 < x.length) :
    getTotalDiffPatch
        { preLast b with hunks := (preLast b).hunks.filter (fun h => decide (0 < h.length)) } =
      patchDocument (record0 b) (appendNlLast (b.hunks.map hunkContent)) := by
  rw [getTotal_update, patchDocument_preLast, preLast_hunks, filter_appendNlLast _ hcontent]

theorem getTotal_filter_preRecord (b : RawFileBlock)
    (hcontent : ∀ x ∈ b.hunks.map hunkContent, 0 < x.length) :
    getTotalDiffPatch
        { preRecord b with
            hunks := (preRecord b).hunks.filter (fun h => decide (0 < h.length)) } =
      patchDocument (record0 b) (b.hunks.map hunkContent) := by
  rw [getTotal_update, patchDocument_preRecord, preRecord_hunks, filter_cons_nil _ hcontent]

/-- The per-record reconstruction over the expected parsed records. -/
theorem map_filter_expectedPre (bs : List RawFileBlock) (hwf : ∀ b ∈ bs, b.wfb = true) :
    ((expectedPre bs).map
      (fun f => { f with hunks := f.hunks.filter (fun h => decide (0 < h.length)) })).map
        (fun f => normTrail (getTotalDiffPatch f)) =
      bs.map (fun b => normTrail b.render) := by
  induction bs with
  | nil => rfl
  | cons b bs ih =>
    have hb := hwf b (List.mem_cons_self b bs)
    have hcontent : ∀ x ∈ b.hunks.map hunkContent, 0 < x.length := by
      intro x hx
      rw [List.mem_map] at hx
      obtain ⟨hk, hhk, rfl⟩ := hx
      rw [RawFileBlock.wfb] at hb
      simp only [Bool.and_eq_true] at hb
      exact hunkContent_pos hk (List.all_eq_true.mp hb.2 hk hhk)
    cases bs with
    | nil =>
      simp only [expectedPre, List.map_cons, List.map_nil]
      rw [getTotal_filter_preLast b hcontent, normTrail_patch_last b]
    | cons b' bs' =>
      rw [show expectedPre (b :: b' :: bs') = preRecord b :: expectedPre (b' :: bs') from rfl]
      simp only [List.map_cons]
      rw [getTotal_filter_preRecord b hcontent, normTrail_patch_nonlast b,
        ih (fun x hx => hwf x (List.mem_cons_of_mem b hx))]
      simp only [List.map_cons]

/-- C3: for every well-formed diff text — a sequence of per-file blocks,
each a `diff --git ` line, exactly three header lines, then zero or more
`@@`-introduced hunks — parsing it with `parseGitDiffOutput` and calling
`getTotalDiffPatch` on each resulting record reproduces byte-for-byte
that file's block from the source text, modulo the trailing-newline
normalization rule (both sides brought to exactly one trailing
newline). -/
theorem C3_total_patch_round_trip (bs : List RawFileBlock) (hwf : ∀ b ∈ bs, b.wfb = true) :
    (parseGitDiffOutput (renderDiffText bs)).map (fun f => normTrail (getTotalDiffPatch f)) =
      bs.map (fun b => normTrail b.render) := by
  rw [parseGitDiffOutput, parseLines_renderDiffText bs hwf]
  exact map_filter_expectedPre bs hwf

/-- A concrete one-file two-hunk diff text used to witness C3. -/
def exampleBlock : RawFileBlock :=
  { pathPair := "a/f b/f".data
    indexLine := "index 1..2 100644".data
    aFileLine := "--- a/f".data
    bFileLine := "+++ b/f".data
    hunks := [{ marker := "@@ -1 +1 @@".data, body := ["-old".data, "+new".data] },
              { marker := "@@ -7 +7 @@".data, body := [" ctx".data, "+add".data] }] }

/-- Witness for C3 at a concrete diff text. -/
theorem C3_round_trip_witness :
    (∀ b ∈ [exampleBlock], b.wfb = true) ∧
      (parseGitDiffOutput (renderDiffText [exampleBlock])).map
          (fun f => normTrail (getTotalDiffPatch f)) =
        [exampleBlock].map (fun b => normTrail b.render) :=
  ⟨by decide, C3_total_patch_round_trip [exampleBlock] (by decide)⟩

/-! ## Reparsing reconstructed documents (C4) -/

/-- The raw-hunk view of a hunk string stored in a parsed record: its
first line is the marker, the remaining lines the body. -/
def toRawHunk (h : Str) : RawHunk :=
  { marker := (jsSplit '\n' h).headD [], body := (jsSplit '\n' h).tail }

/-- Shape of a hunk string as the parser produces it: the first line
opens with `@@`, and no later line opens a hunk or a file. -/
def parsedHunkWfb (h : Str) : Bool :=
  match jsSplit '\n' h with
  | [] => false
  | m :: body =>
    jsStartsWith m "@@".data &&
      body.all (fun l => !jsStartsWith l "@@".data && !jsStartsWith l "diff --git".data)

/-- The header fields of a parsed record are single lines. -/
def headerWfb (f : DiffOutputFile) : Bool :=
  !f.file.contains '\n' && !f.index.contains '\n' && !f.aFile.contains '\n' &&
    !f.bFile.contains '\n'

/-- Append a newline to the final hunk when it lacks one: the exact
change the reconstruction-then-reparse round trip makes to a hunk
subset. -/
def ensureNlLast : List Str → List Str
  | [] => []
  | [h] => [if jsEndsWith h ['\n'] then h else h ++ ['\n']]
  | h :: h' :: t => h :: ensureNlLast (h' :: t)

theorem jsJoin_cons_flat (m : Str) (body : List Str) :
    jsJoin ['\n'] (m :: body) = m ++ (body.map (fun l => '\n' :: l)).flatten := by
  induction body generalizing m with
  | nil => simp [jsJoin_single]
  | cons y t ih =>
    rw [jsJoin_cons_cons, ih y]
    simp [List.append_assoc]

theorem toRawHunk_content (h : Str) : hunkContent (toRawHunk h) = h := by
  rcases hs : jsSplit '\n' h with _ | ⟨m, body⟩
  · exact absurd hs (jsSplit_ne_nil '\n' h)
  · rw [hunkContent, toRawHunk]
    simp only [hs, List.headD_cons, List.tail_cons]
    rw [← jsJoin_cons_flat, ← hs, jsJoin_jsSplit]

theorem toRawHunk_textLines (h : Str) : (toRawHunk h).textLines = jsSplit '\n' h := by
  rcases hs : jsSplit '\n' h with _ | ⟨m, body⟩
  · exact absurd hs (jsSplit_ne_nil '\n' h)
  · rw [RawHunk.textLines, toRawHunk]
    simp [hs]

theorem toRawHunk_wfb (h : Str) (hwf : parsedHunkWfb h = true) :
    (toRawHunk h).wfb = true := by
  rw [parsedHunkWfb] at hwf
  rcases hs : jsSplit '\n' h with _ | ⟨m, body⟩
  · exact absurd hs (jsSplit_ne_nil '\n' h)
  · rw [hs] at hwf
    rw [Bool.and_eq_true] at hwf
    rw [RawHunk.wfb, toRawHunk]
    simp only [hs, List.headD_cons, List.tail_cons, Bool.and_eq_true]
    refine ⟨⟨hwf.1, ?_⟩, ?_⟩
    · have := jsSplit_mem_no_sep '\n' h m (hs ▸ List.mem_cons_self m body)
      simpa using this
    · rw [List.all_eq_true]
      intro l hl
      have hll := List.all_eq_true.mp hwf.2 l hl
      rw [Bool.and_eq_true] at hll
      have hnl := jsSplit_mem_no_sep '\n' h l (hs ▸ List.mem_cons_of_mem m hl)
      simp only [Bool.and_eq_true]
      exact ⟨⟨by simpa using hnl, hll.1⟩, hll.2⟩

theorem parsedHunk_pos (h : Str) (hwf : parsedHunkWfb h = true) : 0 < h.length := by
  have := hunkContent_pos (toRawHunk h) (toRawHunk_wfb h hwf)
  rwa [toRawHunk_content] at this

theorem jsSplit_join (x : Str) (S : List Str) :
    jsSplit '\n' (jsJoin ['\n'] (x :: S)) = ((x :: S).map (jsSplit '\n')).flatten := by
  induction S generalizing x with
  | nil => simp [jsJoin_single]
  | cons y t ih =>
    rw [jsJoin_cons_cons, List.append_assoc]
    show jsSplit '\n' (x ++ '\n' :: jsJoin ['\n'] (y :: t)) = _
    rw [jsSplit_append, ih y]
    simp

theorem jsJoin_ne_nil (x : Str) (S : List Str) (hx : x ≠ []) :
    jsJoin ['\n'] (x :: S) ≠ [] := by
  cases S with
  | nil => simpa [jsJoin_single] using hx
  | cons y t =>
    rw [jsJoin_cons_cons]
    simp [hx]

theorem jsEndsWith_concat (x : Str) (d c : Char) : jsEndsWith (x ++ [d]) [c] = (d == c) := by
  rw [jsEndsWith, List.reverse_append]
  simp [jsStartsWith]

theorem jsEndsWith_append_right (x y : Str) (c : Char) (hy : y ≠ []) :
    jsEndsWith (x ++ y) [c] = jsEndsWith y [c] := by
  rcases List.eq_nil_or_concat y with rfl | ⟨t, d, rfl⟩
  · exact absurd rfl hy
  · rw [List.concat_eq_append, ← List.append_assoc, jsEndsWith_concat, jsEndsWith_concat]

theorem jsJoin_endsWith (x : Str) (S : List Str) (hall : ∀ y ∈ x :: S, y ≠ ([] : Str)) :
    jsEndsWith (jsJoin ['\n'] (x :: S)) ['\n'] =
      jsEndsWith ((x :: S).getLastD []) ['\n'] := by
  induction S generalizing x with
  | nil => simp [jsJoin_single, List.getLastD]
  | cons y t ih =>
    rw [jsJoin_cons_cons, List.append_assoc,
      jsEndsWith_append_right x _ '\n'
        (by simp),
      jsEndsWith_append_right ['\n'] _ '\n'
        (jsJoin_ne_nil y t (hall y (List.mem_cons_of_mem x (List.mem_cons_self y t)))),
      ih y (fun z hz => hall z (List.mem_cons_of_mem x hz))]
    rfl

theorem ensureNlLast_of_endsWith (S : List Str) (hS : S ≠ [])
    (hlast : jsEndsWith (S.getLastD []) ['\n'] = true) : ensureNlLast S = S := by
  induction S with
  | nil => exact absurd rfl hS
  | cons x t ih =>
    cases t with
    | nil =>
      rw [show ([x] : List Str).getLastD [] = x from rfl] at hlast
      simp [ensureNlLast, hlast]
    | cons y u =>
      rw [show ensureNlLast (x :: y :: u) = x :: ensureNlLast (y :: u) from rfl,
        ih (by simp) (by simpa [List.getLastD] using hlast)]

theorem ensureNlLast_of_not_endsWith (S : List Str) (hS : S ≠ [])
    (hlast : jsEndsWith (S.getLastD []) ['\n'] = false) : ensureNlLast S = appendNlLast S := by
  induction S with
  | nil => exact absurd rfl hS
  | cons x t ih =>
    cases t with
    | nil =>
      rw [show ([x] : List Str).getLastD [] = x from rfl] at hlast
      simp [ensureNlLast, appendNlLast, hlast]
    | cons y u =>
      rw [show ensureNlLast (x :: y :: u) = x :: ensureNlLast (y :: u) from rfl,
        appendNlLast_cons_cons,
        ih (by simp) (by simpa [List.getLastD] using hlast)]

/-- Reparsing a reconstructed document: the parser returns exactly one
record, whose hunk list is the selected subset with a newline ensured on
the final hunk. -/
theorem parse_patchDocument (f : DiffOutputFile) (x : Str) (S' : List Str)
    (hhead : headerWfb f = true)
    (hwf : ∀ h ∈ x :: S', parsedHunkWfb h = true) :
    (parseGitDiffOutput (patchDocument f (x :: S'))).map DiffOutputFile.hunks =
      [ensureNlLast (x :: S')] := by
  have hpos : ∀ y ∈ x :: S', 0 < y.length := fun y hy => parsedHunk_pos y (hwf y hy)
  have hall_ne : ∀ y ∈ x :: S', y ≠ ([] : Str) := by
    intro y hy
    have := hpos y hy
    intro hnil
    rw [hnil] at this
    simp at this
  have hxne : x ≠ [] := hall_ne x (List.mem_cons_self x S')
  have hraw_wf : ∀ r ∈ (x :: S').map toRawHunk, r.wfb = true := by
    intro r hr
    rw [List.mem_map] at hr
    obtain ⟨h, hh, rfl⟩ := hr
    exact toRawHunk_wfb h (hwf h hh)
  have hcontent_id : ((x :: S').map toRawHunk).map hunkContent = x :: S' := by
    rw [List.map_map]
    have h1 : (x :: S').map (hunkContent ∘ toRawHunk) = (x :: S').map id :=
      List.map_congr_left (fun h _ => toRawHunk_content h)
    rw [h1, List.map_id]
  rw [headerWfb] at hhead
  simp only [Bool.and_eq_true] at hhead
  have hfile : '\n' ∉ "diff --git ".data ++ f.file := by
    intro hmem
    rcases List.mem_append.mp hmem with h | h
    · rw [dgitsp_data, dgit_data] at h; simp at h
    · exact (by simpa using hhead.1.1.1 : '\n' ∉ f.file) h
  have hindex : '\n' ∉ f.index := by simpa using hhead.1.1.2
  have haf : '\n' ∉ f.aFile := by simpa using hhead.1.2
  have hbf : '\n' ∉ f.bFile := by simpa using hhead.2
  have hdoc : patchDocument f (x :: S') =
      if jsEndsWith ("diff --git ".data ++ f.file ++ '\n' :: f.index ++ '\n' :: f.aFile
          ++ '\n' :: f.bFile ++ '\n' :: jsJoin ['\n'] (x :: S')) ['\n'] then
        "diff --git ".data ++ f.file ++ '\n' :: f.index ++ '\n' :: f.aFile
          ++ '\n' :: f.bFile ++ '\n' :: jsJoin ['\n'] (x :: S')
      else
        ("diff --git ".data ++ f.file ++ '\n' :: f.index ++ '\n' :: f.aFile
          ++ '\n' :: f.bFile ++ '\n' :: jsJoin ['\n'] (x :: S')) ++ ['\n'] := rfl
  have hE : jsEndsWith ("diff --git ".data ++ f.file ++ '\n' :: f.index ++ '\n' :: f.aFile
      ++ '\n' :: f.bFile ++ '\n' :: jsJoin ['\n'] (x :: S')) ['\n'] =
      jsEndsWith ((x :: S').getLastD []) ['\n'] := by
    rw [jsEndsWith_append_right _ ('\n' :: jsJoin ['\n'] (x :: S')) '\n' (by simp),
      show ('\n' :: jsJoin ['\n'] (x :: S')) = ['\n'] ++ jsJoin ['\n'] (x :: S') from rfl,
      jsEndsWith_append_right ['\n'] _ '\n' (jsJoin_ne_nil x S' hxne),
      jsJoin_endsWith x S' hall_ne]
  have hsplitJoin : jsSplit '\n' (jsJoin ['\n'] (x :: S')) =
      (((x :: S').map toRawHunk).map RawHunk.textLines).flatten := by
    rw [jsSplit_join, List.map_map]
    have h1 : (x :: S').map (jsSplit '\n') = (x :: S').map (RawHunk.textLines ∘ toRawHunk) :=
      List.map_congr_left (fun h _ => (toRawHunk_textLines h).symm)
    rw [h1]
  rw [hdoc]
  by_cases hEv : jsEndsWith ("diff --git ".data ++ f.file ++ '\n' :: f.index ++ '\n' :: f.aFile
      ++ '\n' :: f.bFile ++ '\n' :: jsJoin ['\n'] (x :: S')) ['\n']
  · simp only [hEv, if_true]
    rw [parseGitDiffOutput]
    rw [show "diff --git ".data ++ f.file ++ '\n' :: f.index ++ '\n' :: f.aFile
        ++ '\n' :: f.bFile ++ '\n' :: jsJoin ['\n'] (x :: S') =
      ("diff --git ".data ++ f.file) ++ '\n' :: (f.index ++ '\n' :: (f.aFile
        ++ '\n' :: (f.bFile ++ '\n' :: jsJoin ['\n'] (x :: S')))) by simp [List.append_assoc]]
    rw [jsSplit_append, jsSplit_append, jsSplit_append, jsSplit_append,
      jsSplit_no_sep '\n' _ hfile, jsSplit_no_sep '\n' _ hindex, jsSplit_no_sep '\n' _ haf,
      jsSplit_no_sep '\n' _ hbf, hsplitJoin]
    simp only [List.singleton_append]
    rw [parseLines_step_dgit _ _ _ _ _ [] [] dgitline_starts]
    simp only [pushHunkToLast, List.nil_append]
    rw [show (((x :: S').map toRawHunk).map RawHunk.textLines).flatten =
      (((x :: S').map toRawHunk).map RawHunk.textLines).flatten ++ [] by simp]
    rw [parseLines_hunks ((x :: S').map toRawHunk) hraw_wf []]
    rw [show ([mkDiffOutputFile ("diff --git ".data ++ f.file) f.index f.aFile f.bFile] :
        List DiffOutputFile) =
      [] ++ [mkDiffOutputFile ("diff --git ".data ++ f.file) f.index f.aFile f.bFile] from rfl,
      absorbHunks_concat]
    rw [show ∀ (files : List DiffOutputFile) (cur : Str),
        parseLines [] files cur = pushHunkToLast files cur from fun _ _ => rfl]
    rw [pushHunkToLast_concat, recordAbsorb_flush, hcontent_id]
    dsimp only [mkDiffOutputFile, List.nil_append, List.map_cons, List.map_nil]
    rw [filter_cons_nil (x :: S') hpos,
      ensureNlLast_of_endsWith (x :: S') (by simp) (hE ▸ hEv)]
  · simp only [hEv, Bool.false_eq_true, if_false]
    rw [parseGitDiffOutput]
    rw [show ("diff --git ".data ++ f.file ++ '\n' :: f.index ++ '\n' :: f.aFile
        ++ '\n' :: f.bFile ++ '\n' :: jsJoin ['\n'] (x :: S')) ++ ['\n'] =
      ("diff --git ".data ++ f.file) ++ '\n' :: (f.index ++ '\n' :: (f.aFile
        ++ '\n' :: (f.bFile ++ '\n' :: (jsJoin ['\n'] (x :: S') ++ '\n' :: []))))
      by simp [List.append_assoc]]
    rw [jsSplit_append, jsSplit_append, jsSplit_append, jsSplit_append, jsSplit_append,
      jsSplit_no_sep '\n' _ hfile, jsSplit_no_sep '\n' _ hindex, jsSplit_no_sep '\n' _ haf,
      jsSplit_no_sep '\n' _ hbf, hsplitJoin,
      show jsSplit '\n' [] = [[]] from rfl]
    simp only [List.singleton_append]
    rw [parseLines_step_dgit _ _ _ _ _ [] [] dgitline_starts]
    simp only [pushHunkToLast, List.nil_append]
    rw [parseLines_hunks ((x :: S').map toRawHunk) hraw_wf [[]]]
    rw [show ([mkDiffOutputFile ("diff --git ".data ++ f.file) f.index f.aFile f.bFile] :
        List DiffOutputFile) =
      [] ++ [mkDiffOutputFile ("diff --git ".data ++ f.file) f.index f.aFile f.bFile] from rfl,
      absorbHunks_concat]
    rw [parseLines_lastLine, pushHunkToLast_concat, recordAbsorb_flushNl, hcontent_id]
    dsimp only [mkDiffOutputFile, List.nil_append, List.map_cons, List.map_nil]
    have hlastF : jsEndsWith ((x :: S').getLastD []) ['\n'] = false := by
      have hb : jsEndsWith ("diff --git ".data ++ f.file ++ '\n' :: f.index ++ '\n' :: f.aFile
          ++ '\n' :: f.bFile ++ '\n' :: jsJoin ['\n'] (x :: S')) ['\n'] = false := by
        simpa using hEv
      exact hE.symm.trans hb
    rw [filter_appendNlLast (x :: S') hpos,
      ensureNlLast_of_not_endsWith (x :: S') (by simp) hlastF]

/-! ## The patch cache

Embedding of `CacheStore`
(packages/taskgit-core/src/services/cache/cacheService.ts). The
in-memory `files` record is an association list, the filesystem a
path-to-content association list. `sha1` (node's crypto) and
`Date.now().toString(16)` are external inputs, passed as parameters. -/

/-- One scratch file of a cache entry. -/
structure CacheFile where
  cacheFilePath : Str
  content : Str
deriving Repr, DecidableEq

/-- The `FileChanges` record stored per hash. -/
structure FileChanges where
  hash : Str
  originalState : CacheFile
  acceptedChanges : CacheFile
  ignoredChanges : Option CacheFile
deriving Repr, DecidableEq

/-- The `files : Record<string, FileChanges>` table. -/
abbrev Table := List (Str × FileChanges)

/-- The scratch-file area of the filesystem: path to content. -/
abbrev Disk := List (Str × Str)

/-- `node:path.join(os.tmpdir(), 'taskgit', 'patch')`; the concrete
prefix never matters, so a fixed path stands in for it. -/
def TMP_PATCH_DIR : Str := "/tmp/taskgit/patch".data

/-- Lookup in an association list keyed by strings. -/
def alGet {α : Type} : List (Str × α) → Str → Option α
  | [], _ => none
  | (k, v) :: t, key => if k == key then some v else alGet t key

/-- Remove every binding of a key. -/
def alRemove {α : Type} : List (Str × α) → Str → List (Str × α)
  | [], _ => []
  | (k, v) :: t, key => if k == key then alRemove t key else (k, v) :: alRemove t key

/-- Bind a key: JS assignment `obj[key] = v` observed through lookup. -/
def alSet {α : Type} (t : List (Str × α)) (key : Str) (v : α) : List (Str × α) :=
  alRemove t key ++ [(key, v)]

def tableGet (t : Table) (k : Str) : Option FileChanges := alGet t k

/-- JS object assignment `files[hash] = v`. -/
def tableSet (t : Table) (k : Str) (v : FileChanges) : Table := alSet t k v

def diskGet (d : Disk) (p : Str) : Option Str := alGet d p

/-- `writeFileSync`: create or overwrite. -/
def diskSet (d : Disk) (p c : Str) : Disk := alSet d p c

/-- Deletion of one path from the filesystem. -/
def diskRemove (d : Disk) (p : Str) : Disk := alRemove d p

/-- The error `unlinkSync` raises for a missing path (ENOENT). -/
structure UnlinkError where
  path : Str
deriving Repr, DecidableEq

/-- `node:fs.unlinkSync`: removes the path, raising when it is absent. -/
def unlinkSync (p : Str) (d : Disk) : Except UnlinkError Disk :=
  if (diskGet d p).isSome then Except.ok (diskRemove d p) else Except.error { path := p }

/-- Argument record of `CacheStore.createPatchCache`. -/
structure PatchInput where
  originalDiff : Str
  acceptedDiff : Str
  ignoredDiff : Option Str
  filePath : Str
deriving Repr, DecidableEq

/-- JS truthiness of the optional `ignoredDiff` string: `undefined` and
the empty string are falsy. -/
def jsTruthy : Option Str → Bool
  | none => false
  | some s => !s.isEmpty

/-- `CacheStore.createPatchCache`: computes the hash from the file path
and the timestamp, builds the two or three scratch-file records, writes
them to disk, and registers the entry. Returns the hash together with
the updated table and disk. -/
def createPatchCache (sha1 : Str → Str) (now : Str) (file : PatchInput)
    (files : Table) (disk : Disk) : Str × Table × Disk :=
  let hash := sha1 (file.filePath ++ now)
  let chacheFilePath := TMP_PATCH_DIR ++ '/' :: hash
  let fileChanges : FileChanges :=
    { hash := hash
      acceptedChanges := { cacheFilePath := chacheFilePath ++ "-ac.patch".data
                           content := file.acceptedDiff }
      originalState := { cacheFilePath := chacheFilePath ++ "-or.patch".data
                         content := file.originalDiff }
      ignoredChanges := none }
  let fileChanges := if jsTruthy file.ignoredDiff then
      { fileChanges with
        ignoredChanges := some { cacheFilePath := chacheFilePath ++ "-ig.patch".data
                                 content := file.ignoredDiff.getD [] } }
    else fileChanges
  let disk := diskSet disk fileChanges.originalState.cacheFilePath
    fileChanges.originalState.content
  let disk := diskSet disk fileChanges.acceptedChanges.cacheFilePath
    fileChanges.acceptedChanges.content
  let disk := match fileChanges.ignoredChanges with
    | some ig => diskSet disk ig.cacheFilePath ig.content
    | none => disk
  (hash, tableSet files hash fileChanges, disk)

/-- `CacheStore.getFileCache`: plain table lookup (`undefined` when
missing). -/
def getFileCache (files : Table) (hash : Str) : Option FileChanges :=
  tableGet files hash

/-- `CacheStore.clearFileCache`: returns false for an unknown hash;
otherwise unlinks the two or three scratch files and returns true. The
source never deletes `this.files[hash]`, so the table is returned
unchanged. -/
def clearFileCache (files : Table) (hash : Str) (disk : Disk) :
    Except UnlinkError (Bool × Table × Disk) :=
  match getFileCache files hash with
  | none => Except.ok (false, files, disk)
  | some file => do
    let disk ← unlinkSync file.originalState.cacheFilePath disk
    let disk ← unlinkSync file.acceptedChanges.cacheFilePath disk
    let disk ← match file.ignoredChanges with
      | some ig => unlinkSync ig.cacheFilePath disk
      | none => pure disk
    Except.ok (true, files, disk)

/-- `new CacheStore()`: the constructor assigns `this.files = {}` on the
fresh object, registers it as the static instance only when none exists,
and returns the static instance, so the result of every later
construction is the first store with its table intact. The state is the
static `CacheStore.instance` field (`none` before the first
construction); the result is the returned store's table paired with the
updated static field. -/
def CacheStoreNew (instanceVar : Option Table) : Table × Option Table :=
  match instanceVar with
  | none => ([], some [])
  | some t => (t, some t)

theorem alGet_remove_self {α : Type} (t : List (Str × α)) (key : Str) :
    alGet (alRemove t key) key = none := by
  induction t with
  | nil => rfl
  | cons kv t ih =>
    obtain ⟨k, v⟩ := kv
    rw [alRemove]
    by_cases hk : k == key
    · simp only [hk, if_true]; exact ih
    · simp only [hk, Bool.false_eq_true, if_false, alGet, ih]

theorem alGet_remove_other {α : Type} (t : List (Str × α)) (key q : Str) (h : q ≠ key) :
    alGet (alRemove t key) q = alGet t q := by
  induction t with
  | nil => rfl
  | cons kv t ih =>
    obtain ⟨k, v⟩ := kv
    rw [alRemove]
    by_cases hk : k == key
    · have hkq : (k == q) = false := by
        simp only [beq_eq_false_iff_ne]
        intro he
        exact h (he ▸ beq_iff_eq.mp hk)
      simp only [hk, if_true, alGet, hkq, Bool.false_eq_true, if_false]
      exact ih
    · simp only [hk, Bool.false_eq_true, if_false, alGet, ih]

theorem alGet_append_of_none {α : Type} (t1 t2 : List (Str × α)) (key : Str)
    (h : alGet t1 key = none) : alGet (t1 ++ t2) key = alGet t2 key := by
  induction t1 with
  | nil => rfl
  | cons kv t ih =>
    obtain ⟨k, v⟩ := kv
    rw [alGet] at h
    rw [List.cons_append, alGet]
    by_cases hk : k == key
    · rw [if_pos hk] at h; exact absurd h (by simp)
    · rw [if_neg hk] at h ⊢
      exact ih h

theorem alGet_set_self {α : Type} (t : List (Str × α)) (key : Str) (v : α) :
    alGet (alSet t key v) key = some v := by
  rw [alSet, alGet_append_of_none _ _ _ (alGet_remove_self t key), alGet]
  simp

theorem alGet_set_other {α : Type} (t : List (Str × α)) (key q : Str) (v : α) (h : q ≠ key) :
    alGet (alSet t key v) q = alGet t q := by
  rw [alSet]
  induction t with
  | nil =>
    rw [alRemove, List.nil_append, alGet, alGet]
    have : (key == q) = false := by
      simp only [beq_eq_false_iff_ne]
      exact fun he => h he.symm
    rw [if_neg (by simp [this])]
    rfl
  | cons kv t ih =>
    obtain ⟨k, v'⟩ := kv
    rw [alRemove]
    by_cases hk : k == key
    · have hkq : (k == q) = false := by
        simp only [beq_eq_false_iff_ne]
        intro he
        exact h (he ▸ beq_iff_eq.mp hk)
      simp only [hk, if_true, alGet, hkq, Bool.false_eq_true, if_false]
      exact ih
    · simp only [hk, Bool.false_eq_true, if_false, List.cons_append, alGet, ih]

theorem tableGet_set_self (t : Table) (k : Str) (v : FileChanges) :
    tableGet (tableSet t k v) k = some v :=
  alGet_set_self t k v

theorem diskGet_set_self (d : Disk) (p c : Str) : diskGet (diskSet d p c) p = some c :=
  alGet_set_self d p c

theorem diskGet_set_other (d : Disk) (p c q : Str) (h : q ≠ p) :
    diskGet (diskSet d p c) q = diskGet d q :=
  alGet_set_other d p q c h

theorem diskGet_remove_other (d : Disk) (p q : Str) (h : q ≠ p) :
    diskGet (diskRemove d p) q = diskGet d q :=
  alGet_remove_other d p q h

theorem unlinkSync_present (p : Str) (d : Disk) (c : Str) (h : diskGet d p = some c) :
    unlinkSync p d = Except.ok (diskRemove d p) := by
  rw [unlinkSync, h]
  rfl

theorem unlinkSync_missing (p : Str) (d : Disk) (h : diskGet d p = none) :
    unlinkSync p d = Except.error { path := p } := by
  rw [unlinkSync, h]
  rfl

theorem append_ne_of_ne (P a b : Str) (h : a ≠ b) : P ++ a ≠ P ++ b := by
  intro he
  exact h (List.append_cancel_left he)

/-- The entry `createPatchCache` builds when `ignoredDiff` is falsy. -/
def fcPlain (hash : Str) (input : PatchInput) : FileChanges :=
  { hash := hash
    acceptedChanges := { cacheFilePath := (TMP_PATCH_DIR ++ '/' :: hash) ++ "-ac.patch".data
                         content := input.acceptedDiff }
    originalState := { cacheFilePath := (TMP_PATCH_DIR ++ '/' :: hash) ++ "-or.patch".data
                       content := input.originalDiff }
    ignoredChanges := none }

/-- The entry `createPatchCache` builds when `ignoredDiff` is truthy. -/
def fcWithIg (hash : Str) (input : PatchInput) : FileChanges :=
  { fcPlain hash input with
    ignoredChanges := some { cacheFilePath := (TMP_PATCH_DIR ++ '/' :: hash) ++ "-ig.patch".data
                             content := input.ignoredDiff.getD [] } }

theorem createPatchCache_not_truthy (sha1 : Str → Str) (now : Str) (input : PatchInput)
    (files : Table) (disk : Disk) (htr : jsTruthy input.ignoredDiff = false) :
    createPatchCache sha1 now input files disk =
      (sha1 (input.filePath ++ now),
       tableSet files (sha1 (input.filePath ++ now))
         (fcPlain (sha1 (input.filePath ++ now)) input),
       diskSet
         (diskSet disk
           ((TMP_PATCH_DIR ++ '/' :: sha1 (input.filePath ++ now)) ++ "-or.patch".data)
           input.originalDiff)
         ((TMP_PATCH_DIR ++ '/' :: sha1 (input.filePath ++ now)) ++ "-ac.patch".data)
         input.acceptedDiff) := by
  simp only [createPatchCache, htr, Bool.false_eq_true, if_false]
  rfl

theorem createPatchCache_truthy (sha1 : Str → Str) (now : Str) (input : PatchInput)
    (files : Table) (disk : Disk) (htr : jsTruthy input.ignoredDiff = true) :
    createPatchCache sha1 now input files disk =
      (sha1 (input.filePath ++ now),
       tableSet files (sha1 (input.filePath ++ now))
         (fcWithIg (sha1 (input.filePath ++ now)) input),
       diskSet
         (diskSet
           (diskSet disk
             ((TMP_PATCH_DIR ++ '/' :: sha1 (input.filePath ++ now)) ++ "-or.patch".data)
             input.originalDiff)
           ((TMP_PATCH_DIR ++ '/' :: sha1 (input.filePath ++ now)) ++ "-ac.patch".data)
           input.acceptedDiff)
         ((TMP_PATCH_DIR ++ '/' :: sha1 (input.filePath ++ now)) ++ "-ig.patch".data)
         (input.ignoredDiff.getD [])) := by
  simp only [createPatchCache, htr, if_true]
  rfl

theorem or_ne_ac : ("-or.patch".data : Str) ≠ "-ac.patch".data := by decide

theorem ac_ne_or : ("-ac.patch".data : Str) ≠ "-or.patch".data := by decide

theorem ig_ne_or : ("-ig.patch".data : Str) ≠ "-or.patch".data := by decide

theorem ig_ne_ac : ("-ig.patch".data : Str) ≠ "-ac.patch".data := by decide

theorem except_bind_ok {ε α β : Type} (a : α) (f : α → Except ε β) :
    (Except.ok (ε := ε) a >>= f) = f a := rfl

instance : DecidableEq (Except UnlinkError (Bool × Table × Disk)) := fun a b =>
  match a, b with
  | Except.ok x, Except.ok y =>
    if h : x = y then Decidable.isTrue (by rw [h]) else Decidable.isFalse (by simp [h])
  | Except.error e, Except.error e' =>
    if h : e = e' then Decidable.isTrue (by rw [h]) else Decidable.isFalse (by simp [h])
  | Except.ok _, Except.error _ => Decidable.isFalse (by simp)
  | Except.error _, Except.ok _ => Decidable.isFalse (by simp)

/-- `clearFileCache` on a registered hash whose scratch files are all on
disk: returns true and leaves the table unchanged. -/
theorem clearFileCache_ok (files : Table) (hash : Str) (d : Disk) (fc : FileChanges)
    (hget : getFileCache files hash = some fc)
    (h1 : (diskGet d fc.originalState.cacheFilePath).isSome = true)
    (h2 : (diskGet (diskRemove d fc.originalState.cacheFilePath)
      fc.acceptedChanges.cacheFilePath).isSome = true)
    (h3 : ∀ ig ∈ fc.ignoredChanges,
      (diskGet (diskRemove (diskRemove d fc.originalState.cacheFilePath)
        fc.acceptedChanges.cacheFilePath) ig.cacheFilePath).isSome = true) :
    ∃ d', clearFileCache files hash d = Except.ok (true, files, d') := by
  rw [clearFileCache, hget]
  dsimp only
  rw [show unlinkSync fc.originalState.cacheFilePath d =
    Except.ok (diskRemove d fc.originalState.cacheFilePath) by rw [unlinkSync, h1]; rfl,
    except_bind_ok]
  rw [show unlinkSync fc.acceptedChanges.cacheFilePath
      (diskRemove d fc.originalState.cacheFilePath) =
    Except.ok (diskRemove (diskRemove d fc.originalState.cacheFilePath)
      fc.acceptedChanges.cacheFilePath) by rw [unlinkSync, h2]; rfl,
    except_bind_ok]
  rcases hig : fc.ignoredChanges with _ | ig
  · exact ⟨_, rfl⟩
  · have h3' := h3 ig (by rw [hig]; rfl)
    dsimp only
    rw [show unlinkSync ig.cacheFilePath
        (diskRemove (diskRemove d fc.originalState.cacheFilePath)
          fc.acceptedChanges.cacheFilePath) =
      Except.ok (diskRemove (diskRemove (diskRemove d fc.originalState.cacheFilePath)
        fc.acceptedChanges.cacheFilePath) ig.cacheFilePath) by rw [unlinkSync, h3']; rfl,
      except_bind_ok]
    exact ⟨_, rfl⟩

/-- After `createPatchCache`, `clearFileCache` on the fresh hash returns
true with the table unchanged, and the entry is still retrievable. -/
theorem clear_after_create (sha1 : Str → Str) (now : Str) (input : PatchInput)
    (files : Table) (disk : Disk) :
    (∃ d', clearFileCache (createPatchCache sha1 now input files disk).2.1
        (createPatchCache sha1 now input files disk).1
        (createPatchCache sha1 now input files disk).2.2 =
      Except.ok (true, (createPatchCache sha1 now input files disk).2.1, d')) ∧
      getFileCache (createPatchCache sha1 now input files disk).2.1
        (createPatchCache sha1 now input files disk).1 ≠ none := by
  by_cases htr : jsTruthy input.ignoredDiff = true
  · rw [createPatchCache_truthy sha1 now input files disk htr]
    set h0 := sha1 (input.filePath ++ now) with hh0
    set pre := TMP_PATCH_DIR ++ '/' :: h0 with hpre
    have hget : getFileCache (tableSet files h0 (fcWithIg h0 input)) h0 =
        some (fcWithIg h0 input) := tableGet_set_self _ _ _
    constructor
    · refine clearFileCache_ok _ _ _ _ hget ?_ ?_ ?_
      · rw [show (fcWithIg h0 input).originalState.cacheFilePath =
          pre ++ "-or.patch".data from rfl]
        rw [diskGet_set_other _ _ _ _ (append_ne_of_ne pre _ _ (by decide)),
          diskGet_set_other _ _ _ _ (append_ne_of_ne pre _ _ (by decide)),
          diskGet_set_self]
        rfl
      · rw [show (fcWithIg h0 input).originalState.cacheFilePath =
          pre ++ "-or.patch".data from rfl,
          show (fcWithIg h0 input).acceptedChanges.cacheFilePath =
          pre ++ "-ac.patch".data from rfl]
        rw [diskGet_remove_other _ _ _ (append_ne_of_ne pre _ _ (by decide)),
          diskGet_set_other _ _ _ _ (append_ne_of_ne pre _ _ (by decide)),
          diskGet_set_self]
        rfl
      · intro ig hig
        rw [show (fcWithIg h0 input).ignoredChanges =
          some { cacheFilePath := pre ++ "-ig.patch".data
                 content := input.ignoredDiff.getD [] } from rfl] at hig
        simp only [Option.mem_def, Option.some_inj] at hig
        subst hig
        rw [show (fcWithIg h0 input).originalState.cacheFilePath =
          pre ++ "-or.patch".data from rfl,
          show (fcWithIg h0 input).acceptedChanges.cacheFilePath =
          pre ++ "-ac.patch".data from rfl]
        simp only
        rw [diskGet_remove_other _ _ _ (append_ne_of_ne pre _ _ (by decide)),
          diskGet_remove_other _ _ _ (append_ne_of_ne pre _ _ (by decide)),
          diskGet_set_self]
        rfl
    · rw [hget]
      simp
  · rw [createPatchCache_not_truthy sha1 now input files disk
      (by simpa using htr)]
    set h0 := sha1 (input.filePath ++ now) with hh0
    set pre := TMP_PATCH_DIR ++ '/' :: h0 with hpre
    have hget : getFileCache (tableSet files h0 (fcPlain h0 input)) h0 =
        some (fcPlain h0 input) := tableGet_set_self _ _ _
    constructor
    · refine clearFileCache_ok _ _ _ _ hget ?_ ?_ ?_
      · rw [show (fcPlain h0 input).originalState.cacheFilePath =
          pre ++ "-or.patch".data from rfl]
        rw [diskGet_set_other _ _ _ _ (append_ne_of_ne pre _ _ (by decide)),
          diskGet_set_self]
        rfl
      · rw [show (fcPlain h0 input).originalState.cacheFilePath =
          pre ++ "-or.patch".data from rfl,
          show (fcPlain h0 input).acceptedChanges.cacheFilePath =
          pre ++ "-ac.patch".data from rfl]
        rw [diskGet_remove_other _ _ _ (append_ne_of_ne pre _ _ (by decide)),
          diskGet_set_self]
        rfl
      · intro ig hig
        rw [show (fcPlain h0 input).ignoredChanges = none from rfl] at hig
        simp at hig
    · rw [hget]
      simp

/-- C4 counterexample: a parsed record whose single accepted hunk does
not end in a newline. Feeding the reconstructed accepted document back
into the parser yields a record whose hunk gained a trailing newline, so
the hunk list does not equal the selected subset byte-for-byte. -/
theorem C4_reparse_counterexample :
    (parseGitDiffOutput ((getAcceptedDiffPatch
        { file := "a/f b/f".data, fileName := "f".data, index := "index 1..2 100644".data,
          aFile := "--- a/f".data, bFile := "+++ b/f".data,
          hunks := ["@@ -1 +1 @@\n-a\n+b".data],
          acceptedHunks := ["@@ -1 +1 @@\n-a\n+b".data],
          ignoredHunks := [] }).getD [])).map DiffOutputFile.hunks ≠
      [["@@ -1 +1 @@\n-a\n+b".data]] := by decide

/-- C4 (amended): for every parsed file record with single-line headers
and a non-empty accepted subset S of parser-shaped hunks, the
reconstructed accepted document parses back to exactly one record whose
hunk list equals S except that a newline is appended to the final hunk
when it lacks one. -/
theorem C4_reparse_accepted_subset (f : DiffOutputFile)
    (hhead : headerWfb f = true) (hne : f.acceptedHunks ≠ [])
    (hwf : ∀ h ∈ f.acceptedHunks, parsedHunkWfb h = true) :
    ∃ doc, getAcceptedDiffPatch f = some doc ∧
      (parseGitDiffOutput doc).map DiffOutputFile.hunks = [ensureNlLast f.acceptedHunks] := by
  rcases hS : f.acceptedHunks with _ | ⟨x, S'⟩
  · exact absurd hS hne
  · refine ⟨patchDocument f (x :: S'), ?_, ?_⟩
    · rw [getAcceptedDiffPatch, hS]
      simp
    · exact parse_patchDocument f x S' hhead (fun h hh => hwf h (by rw [hS]; exact hh))

/-- Witness for C4's amended theorem at a concrete record. -/
theorem C4_reparse_witness :
    headerWfb
        { file := "a/f b/f".data
          fileName := "f".data
          index := "index 1..2 100644".data
          aFile := "--- a/f".data
          bFile := "+++ b/f".data
          hunks := ["@@ -1 +1 @@\n-a\n+b".data, "@@ -9 +9 @@\n-c\n+d\n".data]
          acceptedHunks := ["@@ -1 +1 @@\n-a\n+b".data, "@@ -9 +9 @@\n-c\n+d\n".data]
          ignoredHunks := [] } = true ∧
    (∃ doc, getAcceptedDiffPatch
        { file := "a/f b/f".data
          fileName := "f".data
          index := "index 1..2 100644".data
          aFile := "--- a/f".data
          bFile := "+++ b/f".data
          hunks := ["@@ -1 +1 @@\n-a\n+b".data, "@@ -9 +9 @@\n-c\n+d\n".data]
          acceptedHunks := ["@@ -1 +1 @@\n-a\n+b".data, "@@ -9 +9 @@\n-c\n+d\n".data]
          ignoredHunks := [] } = some doc ∧
      (parseGitDiffOutput doc).map DiffOutputFile.hunks =
        [ensureNlLast ["@@ -1 +1 @@\n-a\n+b".data, "@@ -9 +9 @@\n-c\n+d\n".data]]) :=
  ⟨by decide, C4_reparse_accepted_subset _ (by decide) (by decide) (by decide)⟩

/-- C7 counterexample: a record with zero hunks. `getTotalDiffPatch`
does not return a sentinel — its return type is a plain string and the
call produces a full header document — contradicting the claim that the
total variant returns the no-content sentinel for an empty subset. -/
theorem C7_total_counterexample :
    ({ file := "a/f b/f".data
       fileName := "f".data
       index := "i".data
       aFile := "a".data
       bFile := "b".data
       hunks := []
       acceptedHunks := []
       ignoredHunks := [] } : DiffOutputFile).hunks = [] ∧
    getTotalDiffPatch
        { file := "a/f b/f".data
          fileName := "f".data
          index := "i".data
          aFile := "a".data
          bFile := "b".data
          hunks := []
          acceptedHunks := []
          ignoredHunks := [] } = "diff --git a/f b/f\ni\na\nb\n".data := by decide

/-- C7 (amended): the accepted and ignored reconstruction methods return
the sentinel exactly when their subsets are empty; the total variant
never returns a sentinel and always produces a document that opens with
the diff marker, even for a record with zero hunks. -/
theorem C7_sentinel_iff (f : DiffOutputFile) :
    (getAcceptedDiffPatch f = none ↔ f.acceptedHunks = []) ∧
    (getIgnoredDiffPatch f = none ↔ f.ignoredHunks = []) ∧
    jsStartsWith (getTotalDiffPatch f) "diff --git ".data = true := by
  refine ⟨?_, ?_, ?_⟩
  · rw [getAcceptedDiffPatch]
    by_cases h : f.acceptedHunks.length = 0
    · simp [h, List.length_eq_zero.mp h]
    · simp only [h, if_false]
      constructor
      · intro hc; exact absurd hc (by simp)
      · intro hc; exact absurd (hc ▸ rfl) h
  · rw [getIgnoredDiffPatch]
    by_cases h : f.ignoredHunks.length = 0
    · simp [h, List.length_eq_zero.mp h]
    · simp only [h, if_false]
      constructor
      · intro hc; exact absurd hc (by simp)
      · intro hc; exact absurd (hc ▸ rfl) h
  · rw [getTotalDiffPatch, patchDocument]
    split
    · simp only [List.append_assoc]
      exact jsStartsWith_append _ _
    · simp only [List.append_assoc]
      exact jsStartsWith_append _ _

/-- C5 counterexample: `createPatchCache` then `clearFileCache` on the
fresh hash. The clear call returns true and deletes the scratch files,
but the table it returns is the unchanged input table, and the
immediately following `getFileCache` still returns the entry instead of
not-found. -/
theorem C5_clear_counterexample :
    clearFileCache
        (createPatchCache (fun s => s) "0".data
          { originalDiff := "od".data, acceptedDiff := "ad".data,
            ignoredDiff := none, filePath := "p".data } [] []).2.1
        (createPatchCache (fun s => s) "0".data
          { originalDiff := "od".data, acceptedDiff := "ad".data,
            ignoredDiff := none, filePath := "p".data } [] []).1
        (createPatchCache (fun s => s) "0".data
          { originalDiff := "od".data, acceptedDiff := "ad".data,
            ignoredDiff := none, filePath := "p".data } [] []).2.2 =
      Except.ok (true,
        (createPatchCache (fun s => s) "0".data
          { originalDiff := "od".data, acceptedDiff := "ad".data,
            ignoredDiff := none, filePath := "p".data } [] []).2.1, []) ∧
    getFileCache
        (createPatchCache (fun s => s) "0".data
          { originalDiff := "od".data, acceptedDiff := "ad".data,
            ignoredDiff := none, filePath := "p".data } [] []).2.1
        (createPatchCache (fun s => s) "0".data
          { originalDiff := "od".data, acceptedDiff := "ad".data,
            ignoredDiff := none, filePath := "p".data } [] []).1 ≠ none := by decide

/-- C5 (amended): for every entry registered by `createPatchCache`,
`clearFileCache` of its hash returns true and deletes the scratch
files, but does not remove the table entry — the returned table is the
input table and a subsequent `getFileCache` still finds the entry; for
an unregistered hash it returns false and changes nothing. -/
theorem C5_clear_semantics (sha1 : Str → Str) (now : Str) (input : PatchInput)
    (files : Table) (disk : Disk) :
    ((∃ d', clearFileCache (createPatchCache sha1 now input files disk).2.1
        (createPatchCache sha1 now input files disk).1
        (createPatchCache sha1 now input files disk).2.2 =
      Except.ok (true, (createPatchCache sha1 now input files disk).2.1, d')) ∧
      getFileCache (createPatchCache sha1 now input files disk).2.1
        (createPatchCache sha1 now input files disk).1 ≠ none) ∧
    (∀ h fs dk, getFileCache fs h = none →
      clearFileCache fs h dk = Except.ok (false, fs, dk)) := by
  refine ⟨clear_after_create sha1 now input files disk, ?_⟩
  intro h fs dk hnone
  rw [clearFileCache, hnone]

/-- Witness for C5's amended theorem at concrete inputs. -/
theorem C5_clear_witness :
    (((∃ d', clearFileCache (createPatchCache (fun s => s) "1".data
        { originalDiff := "o".data, acceptedDiff := "a".data,
          ignoredDiff := some "ig".data, filePath := "q".data } [] []).2.1
        (createPatchCache (fun s => s) "1".data
          { originalDiff := "o".data, acceptedDiff := "a".data,
            ignoredDiff := some "ig".data, filePath := "q".data } [] []).1
        (createPatchCache (fun s => s) "1".data
          { originalDiff := "o".data, acceptedDiff := "a".data,
            ignoredDiff := some "ig".data, filePath := "q".data } [] []).2.2 =
      Except.ok (true, (createPatchCache (fun s => s) "1".data
        { originalDiff := "o".data, acceptedDiff := "a".data,
          ignoredDiff := some "ig".data, filePath := "q".data } [] []).2.1, d')) ∧
      getFileCache (createPatchCache (fun s => s) "1".data
        { originalDiff := "o".data, acceptedDiff := "a".data,
          ignoredDiff := some "ig".data, filePath := "q".data } [] []).2.1
        (createPatchCache (fun s => s) "1".data
          { originalDiff := "o".data, acceptedDiff := "a".data,
            ignoredDiff := some "ig".data, filePath := "q".data } [] []).1 ≠ none)) ∧
    clearFileCache [] "h".data [] = Except.ok (false, [], []) :=
  ⟨(C5_clear_semantics (fun s => s) "1".data
      { originalDiff := "o".data, acceptedDiff := "a".data,
        ignoredDiff := some "ig".data, filePath := "q".data } [] []).1,
   (C5_clear_semantics (fun s => s) "1".data
      { originalDiff := "o".data, acceptedDiff := "a".data,
        ignoredDiff := some "ig".data, filePath := "q".data } [] []).2
     "h".data [] [] (by decide)⟩

/-- C6 counterexample: after `createPatchCache`, the original-state
scratch file is removed externally; `clearFileCache` then raises
(`unlinkSync` ENOENT) instead of tolerating the missing file. -/
theorem C6_missing_file_counterexample :
    clearFileCache
        (createPatchCache (fun s => s) "0".data
          { originalDiff := "od".data, acceptedDiff := "ad".data,
            ignoredDiff := none, filePath := "p".data } [] []).2.1
        "p0".data
        (diskRemove
          (createPatchCache (fun s => s) "0".data
            { originalDiff := "od".data, acceptedDiff := "ad".data,
              ignoredDiff := none, filePath := "p".data } [] []).2.2
          "/tmp/taskgit/patch/p0-or.patch".data) =
      Except.error { path := "/tmp/taskgit/patch/p0-or.patch".data } := by decide

/-- C6 (corrected): for a registered entry whose original-state scratch
file is missing from disk, `clearFileCache` raises the missing-file
deletion error — it is not tolerated. -/
theorem C6_clear_raises_on_missing (files : Table) (hash : Str) (disk : Disk)
    (fc : FileChanges) (hget : getFileCache files hash = some fc)
    (hmiss : diskGet disk fc.originalState.cacheFilePath = none) :
    clearFileCache files hash disk =
      Except.error { path := fc.originalState.cacheFilePath } := by
  rw [clearFileCache, hget]
  dsimp only
  rw [unlinkSync_missing _ _ hmiss]
  rfl

/-- Witness for C6's theorem at a concrete state. -/
theorem C6_missing_witness :
    clearFileCache
        [("h".data,
          { hash := "h".data
            originalState := { cacheFilePath := "/x-or.patch".data, content := "o".data }
            acceptedChanges := { cacheFilePath := "/x-ac.patch".data, content := "a".data }
            ignoredChanges := none })] "h".data [] =
      Except.error { path := "/x-or.patch".data } :=
  C6_clear_raises_on_missing _ _ _
    { hash := "h".data
      originalState := { cacheFilePath := "/x-or.patch".data, content := "o".data }
      acceptedChanges := { cacheFilePath := "/x-ac.patch".data, content := "a".data }
      ignoredChanges := none }
    (by decide) (by decide)

/-- C9 counterexample: two `createPatchCache` calls for the same file
path within the same clock tick (same `Date.now()` reading) return the
same hash — the hash is not unique per call. -/
theorem C9_same_tick_counterexample :
    (createPatchCache (fun s => s) "0".data
      { originalDiff := "od".data, acceptedDiff := "ad".data,
        ignoredDiff := none, filePath := "p".data } [] []).1 =
    (createPatchCache (fun s => s) "0".data
      { originalDiff := "od2".data, acceptedDiff := "ad2".data,
        ignoredDiff := none, filePath := "p".data }
      (createPatchCache (fun s => s) "0".data
        { originalDiff := "od".data, acceptedDiff := "ad".data,
          ignoredDiff := none, filePath := "p".data } [] []).2.1
      (createPatchCache (fun s => s) "0".data
        { originalDiff := "od".data, acceptedDiff := "ad".data,
          ignoredDiff := none, filePath := "p".data } [] []).2.2).1 := by decide

/-- C9 (amended): two `createPatchCache` calls return distinct hashes
whenever the hash function is injective and the path-plus-timestamp
inputs differ; same path in the same clock tick may collide. -/
theorem C9_distinct_inputs_distinct_hash (sha1 : Str → Str)
    (hinj : Function.Injective sha1) (i1 i2 : PatchInput) (t1 t2 : Str)
    (f1 f2 : Table) (d1 d2 : Disk)
    (hne : i1.filePath ++ t1 ≠ i2.filePath ++ t2) :
    (createPatchCache sha1 t1 i1 f1 d1).1 ≠ (createPatchCache sha1 t2 i2 f2 d2).1 := by
  intro h
  have h' : sha1 (i1.filePath ++ t1) = sha1 (i2.filePath ++ t2) := h
  exact hne (hinj h')

/-- Witness for C9's amended theorem at concrete inputs. -/
theorem C9_distinct_witness :
    (createPatchCache (fun s => s) "1".data
      { originalDiff := "o".data, acceptedDiff := "a".data,
        ignoredDiff := none, filePath := "a".data } [] []).1 ≠
    (createPatchCache (fun s => s) "1".data
      { originalDiff := "o".data, acceptedDiff := "a".data,
        ignoredDiff := none, filePath := "b".data } [] []).1 :=
  C9_distinct_inputs_distinct_hash (fun s => s) (fun _ _ h => h) _ _ _ _ _ _ _ _ (by decide)

/-- C10: `new CacheStore()` evaluates to the process-wide instance — the
constructor's `this.files = {}` only initializes the throwaway fresh
object — so every entry registered through `createPatchCache` before
such a construction remains retrievable through `getFileCache` on the
store the constructor returns, and the static instance is unchanged. -/
theorem C10_singleton_preserves_entries (sha1 : Str → Str) (now : Str) (input : PatchInput)
    (files : Table) (disk : Disk) :
    (CacheStoreNew (some (createPatchCache sha1 now input files disk).2.1)).1 =
      (createPatchCache sha1 now input files disk).2.1 ∧
    (CacheStoreNew (some (createPatchCache sha1 now input files disk).2.1)).2 =
      some (createPatchCache sha1 now input files disk).2.1 ∧
    getFileCache (CacheStoreNew (some (createPatchCache sha1 now input files disk).2.1)).1
        (createPatchCache sha1 now input files disk).1 ≠ none :=
  ⟨rfl, rfl, (clear_after_create sha1 now input files disk).2⟩

/-! ## The selection orchestrator (`add-diff` command)

Embedding of the per-file loop of `diffPickCommand.action`
(packages/taskgit-cli/src/commands/addDiffCommand.ts) together with the
control flow of `exeCommand` (exe-service): a failing external command
invokes the `onError` callback, and when that callback returns true,
`ErrorHandler.throw` fires — with the CLI's registered subscriber this
calls `process.exit(1)`, so the run does not continue. The external
`git checkout / apply / add` effects are an abstract interface; `apply`
receives the patch content read from the scratch-file path it was given
and reports failure as `none`. -/

/-- One external git invocation issued by the orchestrator. -/
inductive GitCall where
  | checkout (fileName : Str)
  | applyPatch (patchFilePath : Str)
  | add (fileName : Str)
deriving Repr, DecidableEq

/-- The external repository: effects of the three git commands used. -/
structure ExtGit (Tree : Type) where
  checkoutFile : Str → Tree → Tree
  applyPatch : Str → Tree → Option Tree
  addFile : Str → Tree → Tree

/-- The per-hunk classification loop: each confirm answer pushes the
hunk into `acceptedHunks` or `ignoredHunks`. -/
def classifyHunks (fileDiff : DiffOutputFile) (answers : List Bool) : DiffOutputFile :=
  (fileDiff.hunks.zip answers).foldl
    (fun fd hd =>
      if hd.2 then { fd with acceptedHunks := fd.acceptedHunks ++ [hd.1] }
      else { fd with ignoredHunks := fd.ignoredHunks ++ [hd.1] })
    fileDiff

/-- State threaded through the command loop: the working tree, the
static `CacheStore.instance` table, the scratch-file disk, the stream of
`Date.now().toString(16)` readings, and the log of git calls issued. -/
structure OrchState (Tree : Type) where
  tree : Tree
  instanceVar : Option Table
  disk : Disk
  timestamps : List Str
  calls : List GitCall
deriving Repr, DecidableEq

/-- The object literal the orchestrator passes to `createPatchCache`:
`acceptedDiff` is cast from the nullable accepted document (`as
string`), `ignoredDiff` is the nullable ignored document
(`?? undefined`). -/
def patchInputOf (fd : DiffOutputFile) : PatchInput :=
  { acceptedDiff := (getAcceptedDiffPatch fd).getD []
    filePath := fd.file
    originalDiff := getTotalDiffPatch fd
    ignoredDiff := getIgnoredDiffPatch fd }

/-- Processing of one file of the diff. `Except.error` is an aborted
run: `ErrorHandler.throw` fired (the CLI subscriber exits the process)
or an exception escaped the action, so no later file is processed. -/
def processFileDiff {Tree : Type} (G : ExtGit Tree) (sha1 : Str → Str)
    (fileDiff : DiffOutputFile) (answers : List Bool) (s : OrchState Tree) :
    Except (OrchState Tree) (OrchState Tree) :=
  let fd := classifyHunks fileDiff answers
  if fd.acceptedHunks.length = 0 then Except.ok s
  else
    let cache := CacheStoreNew s.instanceVar
    let created := createPatchCache sha1 (s.timestamps.headD []) (patchInputOf fd)
      cache.1 s.disk
    let s := { s with
               instanceVar := some created.2.1
               disk := created.2.2
               timestamps := s.timestamps.tail }
    match getFileCache created.2.1 created.1 with
    | none => Except.error s
    | some file =>
      let s := { s with
                 tree := G.checkoutFile fd.fileName s.tree
                 calls := s.calls ++ [GitCall.checkout fd.fileName] }
      let s := { s with
                 calls := s.calls ++ [GitCall.applyPatch file.acceptedChanges.cacheFilePath] }
      match G.applyPatch ((diskGet s.disk file.acceptedChanges.cacheFilePath).getD [])
          s.tree with
      | some tree2 =>
        let s := { s with
                   tree := G.addFile fd.fileName tree2
                   calls := s.calls ++ [GitCall.add fd.fileName] }
        let s := match file.ignoredChanges with
          | some ig =>
            let s := { s with calls := s.calls ++ [GitCall.applyPatch ig.cacheFilePath] }
            match G.applyPatch ((diskGet s.disk ig.cacheFilePath).getD []) s.tree with
            | some t3 => { s with tree := t3 }
            | none => s
          | none => s
        match clearFileCache (s.instanceVar.getD []) file.hash s.disk with
        | Except.ok r => Except.ok { s with instanceVar := some r.2.1, disk := r.2.2 }
        | Except.error _ => Except.error s
      | none =>
        let s := { s with
                   calls := s.calls ++ [GitCall.applyPatch file.originalState.cacheFilePath] }
        let s := match G.applyPatch ((diskGet s.disk file.originalState.cacheFilePath).getD [])
            s.tree with
          | some t2 => { s with tree := t2 }
          | none => s
        Except.error s

/-- The `for (const fileDiff of diff)` loop: files processed in order,
stopping at an aborted run. -/
def processFiles {Tree : Type} (G : ExtGit Tree) (sha1 : Str → Str) :
    List (DiffOutputFile × List Bool) → OrchState Tree →
      Except (OrchState Tree) (OrchState Tree)
  | [], s => Except.ok s
  | (fd, ans) :: rest, s =>
    match processFileDiff G sha1 fd ans s with
    | Except.ok s' => processFiles G sha1 rest s'
    | Except.error s' => Except.error s'

theorem getFileCache_set_self (t : Table) (k : Str) (v : FileChanges) :
    getFileCache (tableSet t k v) k = some v := tableGet_set_self t k v

theorem processFileDiff_fail_spec {Tree : Type} (G : ExtGit Tree) (sha1 : Str → Str)
    (fileDiff : DiffOutputFile) (answers : List Bool) (s : OrchState Tree) (t2 : Tree)
    (hacc : (classifyHunks fileDiff answers).acceptedHunks ≠ [])
    (hfail : G.applyPatch
      ((getAcceptedDiffPatch (classifyHunks fileDiff answers)).getD [])
      (G.checkoutFile (classifyHunks fileDiff answers).fileName s.tree) = none)
    (hrec : G.applyPatch (getTotalDiffPatch (classifyHunks fileDiff answers))
      (G.checkoutFile (classifyHunks fileDiff answers).fileName s.tree) = some t2) :
    ∃ fc T D, getFileCache T
        (sha1 ((classifyHunks fileDiff answers).file ++ s.timestamps.headD [])) = some fc ∧
      processFileDiff G sha1 fileDiff answers s = Except.error
        { tree := t2
          instanceVar := some T
          disk := D
          timestamps := s.timestamps.tail
          calls := s.calls ++ [GitCall.checkout (classifyHunks fileDiff answers).fileName,
            GitCall.applyPatch ((TMP_PATCH_DIR ++ '/' ::
              sha1 ((classifyHunks fileDiff answers).file ++ s.timestamps.headD []))
              ++ "-ac.patch".data),
            GitCall.applyPatch ((TMP_PATCH_DIR ++ '/' ::
              sha1 ((classifyHunks fileDiff answers).file ++ s.timestamps.headD []))
              ++ "-or.patch".data)] } := by
  have hlen : ¬((classifyHunks fileDiff answers).acceptedHunks.length = 0) := by
    intro h
    exact hacc (List.length_eq_zero.mp h)
  by_cases htr : jsTruthy (patchInputOf (classifyHunks fileDiff answers)).ignoredDiff = true
  · simp only [processFileDiff]
    rw [if_neg hlen]
    rw [createPatchCache_truthy sha1 (s.timestamps.headD [])
      (patchInputOf (classifyHunks fileDiff answers)) (CacheStoreNew s.instanceVar).1
      s.disk htr]
    dsimp only [patchInputOf, fcWithIg, fcPlain]
    rw [getFileCache_set_self]
    dsimp only
    rw [diskGet_set_other _ _ _ _ (append_ne_of_ne _ _ _ (by decide)),
      diskGet_set_self, Option.getD_some]
    rw [hfail]
    dsimp only
    rw [diskGet_set_other _ _ _ _ (append_ne_of_ne _ _ _ (by decide)),
      diskGet_set_other _ _ _ _ (append_ne_of_ne _ _ _ (by decide)),
      diskGet_set_self, Option.getD_some]
    rw [hrec]
    dsimp only
    refine ⟨fcWithIg (sha1 ((classifyHunks fileDiff answers).file ++ s.timestamps.headD []))
        (patchInputOf (classifyHunks fileDiff answers)),
      tableSet (CacheStoreNew s.instanceVar).1
        (sha1 ((classifyHunks fileDiff answers).file ++ s.timestamps.headD []))
        (fcWithIg (sha1 ((classifyHunks fileDiff answers).file ++ s.timestamps.headD []))
          (patchInputOf (classifyHunks fileDiff answers))),
      diskSet (diskSet (diskSet s.disk
          ((TMP_PATCH_DIR ++ '/' ::
            sha1 ((classifyHunks fileDiff answers).file ++ s.timestamps.headD []))
            ++ "-or.patch".data)
          (getTotalDiffPatch (classifyHunks fileDiff answers)))
        ((TMP_PATCH_DIR ++ '/' ::
          sha1 ((classifyHunks fileDiff answers).file ++ s.timestamps.headD []))
          ++ "-ac.patch".data)
        ((getAcceptedDiffPatch (classifyHunks fileDiff answers)).getD []))
        ((TMP_PATCH_DIR ++ '/' ::
          sha1 ((classifyHunks fileDiff answers).file ++ s.timestamps.headD []))
          ++ "-ig.patch".data)
        ((getIgnoredDiffPatch (classifyHunks fileDiff answers)).getD []),
      getFileCache_set_self _ _ _, ?_⟩
    simp only [List.append_assoc, List.cons_append, List.nil_append, List.singleton_append]
    rfl
  · simp only [processFileDiff]
    rw [if_neg hlen]
    rw [createPatchCache_not_truthy sha1 (s.timestamps.headD [])
      (patchInputOf (classifyHunks fileDiff answers)) (CacheStoreNew s.instanceVar).1
      s.disk (by simpa using htr)]
    dsimp only [patchInputOf, fcPlain]
    rw [getFileCache_set_self]
    dsimp only
    rw [diskGet_set_self, Option.getD_some]
    rw [hfail]
    dsimp only
    rw [diskGet_set_other _ _ _ _ (append_ne_of_ne _ _ _ (by decide)),
      diskGet_set_self, Option.getD_some]
    rw [hrec]
    dsimp only
    refine ⟨fcPlain (sha1 ((classifyHunks fileDiff answers).file ++ s.timestamps.headD []))
        (patchInputOf (classifyHunks fileDiff answers)),
      tableSet (CacheStoreNew s.instanceVar).1
        (sha1 ((classifyHunks fileDiff answers).file ++ s.timestamps.headD []))
        (fcPlain (sha1 ((classifyHunks fileDiff answers).file ++ s.timestamps.headD []))
          (patchInputOf (classifyHunks fileDiff answers))),
      diskSet (diskSet s.disk
          ((TMP_PATCH_DIR ++ '/' ::
            sha1 ((classifyHunks fileDiff answers).file ++ s.timestamps.headD []))
            ++ "-or.patch".data)
          (getTotalDiffPatch (classifyHunks fileDiff answers)))
        ((TMP_PATCH_DIR ++ '/' ::
          sha1 ((classifyHunks fileDiff answers).file ++ s.timestamps.headD []))
          ++ "-ac.patch".data)
        ((getAcceptedDiffPatch (classifyHunks fileDiff answers)).getD []),
      getFileCache_set_self _ _ _, ?_⟩
    simp only [List.append_assoc, List.cons_append, List.nil_append, List.singleton_append]
    rfl

/-- C1: for a file whose accepted-only patch document fails to apply
while the original (total) document applies cleanly, the orchestrator
issues the recovery apply of the original document immediately after the
failed accepted apply, and the run ends with the file's working tree in
the fully-original state — the result of applying the total patch to
the freshly checked-out tree — never a third, partially-applied
state. -/
theorem C1_recovery_restores_original {Tree : Type} (G : ExtGit Tree) (sha1 : Str → Str)
    (fileDiff : DiffOutputFile) (answers : List Bool) (s : OrchState Tree) (t2 : Tree)
    (hacc : (classifyHunks fileDiff answers).acceptedHunks ≠ [])
    (hfail : G.applyPatch
      ((getAcceptedDiffPatch (classifyHunks fileDiff answers)).getD [])
      (G.checkoutFile (classifyHunks fileDiff answers).fileName s.tree) = none)
    (hrec : G.applyPatch (getTotalDiffPatch (classifyHunks fileDiff answers))
      (G.checkoutFile (classifyHunks fileDiff answers).fileName s.tree) = some t2) :
    ∃ s', processFileDiff G sha1 fileDiff answers s = Except.error s' ∧
      s'.tree = t2 ∧
      s'.calls = s.calls ++ [GitCall.checkout (classifyHunks fileDiff answers).fileName,
        GitCall.applyPatch ((TMP_PATCH_DIR ++ '/' ::
          sha1 ((classifyHunks fileDiff answers).file ++ s.timestamps.headD []))
          ++ "-ac.patch".data),
        GitCall.applyPatch ((TMP_PATCH_DIR ++ '/' ::
          sha1 ((classifyHunks fileDiff answers).file ++ s.timestamps.headD []))
          ++ "-or.patch".data)] := by
  obtain ⟨fc, T, D, hget, hrun⟩ :=
    processFileDiff_fail_spec G sha1 fileDiff answers s t2 hacc hfail hrec
  exact ⟨_, hrun, rfl, rfl⟩

/-- A concrete repository model for witnesses: trees are naturals, the
accepted-only document of the witness file fails to apply, every other
patch applies and increments the tree. -/
def witnessGit : ExtGit Nat :=
  { checkoutFile := fun _ t => t
    applyPatch := fun c t =>
      if c = "diff --git a/f b/f\ni\na\nb\n@@ 1\n x\n".data then none else some (t + 1)
    addFile := fun _ t => t }

/-- The witness file record: two hunks, the first accepted and the
second rejected. -/
def witnessFile : DiffOutputFile :=
  { file := "a/f b/f".data
    fileName := "f".data
    index := "i".data
    aFile := "a".data
    bFile := "b".data
    hunks := ["@@ 1\n x".data, "@@ 2\n y".data]
    acceptedHunks := []
    ignoredHunks := [] }

/-- The initial orchestrator state for witnesses. -/
def witnessState : OrchState Nat :=
  { tree := 0
    instanceVar := none
    disk := []
    timestamps := ["1".data, "2".data]
    calls := [] }

/-- Witness for C1 at a concrete failing run. -/
theorem C1_recovery_witness :
    (classifyHunks witnessFile [true, false]).acceptedHunks ≠ [] ∧
    ∃ s', processFileDiff witnessGit (fun s => s) witnessFile [true, false] witnessState =
        Except.error s' ∧
      s'.tree = 1 ∧
      s'.calls = witnessState.calls ++
        [GitCall.checkout (classifyHunks witnessFile [true, false]).fileName,
         GitCall.applyPatch ((TMP_PATCH_DIR ++ '/' ::
           (fun s => s) ((classifyHunks witnessFile [true, false]).file ++
             witnessState.timestamps.headD [])) ++ "-ac.patch".data),
         GitCall.applyPatch ((TMP_PATCH_DIR ++ '/' ::
           (fun s => s) ((classifyHunks witnessFile [true, false]).file ++
             witnessState.timestamps.headD [])) ++ "-or.patch".data)] :=
  ⟨by decide,
   C1_recovery_restores_original witnessGit (fun s => s) witnessFile [true, false]
     witnessState 1 (by decide) (by decide) (by decide)⟩

instance : DecidableEq (Except (OrchState Nat) (OrchState Nat)) := fun a b =>
  match a, b with
  | Except.ok x, Except.ok y =>
    if h : x = y then Decidable.isTrue (by rw [h]) else Decidable.isFalse (by simp [h])
  | Except.error e, Except.error e' =>
    if h : e = e' then Decidable.isTrue (by rw [h]) else Decidable.isFalse (by simp [h])
  | Except.ok _, Except.error _ => Decidable.isFalse (by simp)
  | Except.error _, Except.ok _ => Decidable.isFalse (by simp)

/-- C2 counterexample: a two-file run in which the first file's accepted
apply fails. The command aborts: the run result is an aborted state in
which the second file was never checked out — it is not processed — and
the first file's cache entry is still registered, not cleared. -/
theorem C2_abort_counterexample :
    ∃ s' : OrchState Nat,
      processFiles witnessGit (fun s => s)
          [(witnessFile, [true, false]),
           ({ witnessFile with file := "a/g b/g".data, fileName := "g".data }, [true])]
          witnessState = Except.error s' ∧
        GitCall.checkout "g".data ∉ s'.calls ∧
        getFileCache (s'.instanceVar.getD []) "a/f b/f1".data ≠ none := by
  refine ⟨(match processFiles witnessGit (fun s => s)
      [(witnessFile, [true, false]),
       ({ witnessFile with file := "a/g b/g".data, fileName := "g".data }, [true])]
      witnessState with
    | Except.error s' => s'
    | Except.ok s' => s'), ?_, ?_, ?_⟩ <;> decide

/-- C2 (amended): when a file's accepted-subset apply fails and the
recovery apply of the original patch runs, `ErrorHandler.throw` aborts
the command: the run ends in the same aborted state whatever files
remain — they are not processed — and the file's cache entry is still
registered in the aborted state, not cleared. -/
theorem C2_abort_after_recovery {Tree : Type} (G : ExtGit Tree) (sha1 : Str → Str)
    (fileDiff : DiffOutputFile) (answers : List Bool) (s : OrchState Tree) (t2 : Tree)
    (hacc : (classifyHunks fileDiff answers).acceptedHunks ≠ [])
    (hfail : G.applyPatch
      ((getAcceptedDiffPatch (classifyHunks fileDiff answers)).getD [])
      (G.checkoutFile (classifyHunks fileDiff answers).fileName s.tree) = none)
    (hrec : G.applyPatch (getTotalDiffPatch (classifyHunks fileDiff answers))
      (G.checkoutFile (classifyHunks fileDiff answers).fileName s.tree) = some t2) :
    ∃ s', (∀ rest, processFiles G sha1 ((fileDiff, answers) :: rest) s = Except.error s') ∧
      getFileCache (s'.instanceVar.getD [])
        (sha1 ((classifyHunks fileDiff answers).file ++ s.timestamps.headD [])) ≠ none := by
  obtain ⟨fc, T, D, hget, hrun⟩ :=
    processFileDiff_fail_spec G sha1 fileDiff answers s t2 hacc hfail hrec
  refine ⟨{ tree := t2
            instanceVar := some T
            disk := D
            timestamps := s.timestamps.tail
            calls := s.calls ++ [GitCall.checkout (classifyHunks fileDiff answers).fileName,
              GitCall.applyPatch ((TMP_PATCH_DIR ++ '/' ::
                sha1 ((classifyHunks fileDiff answers).file ++ s.timestamps.headD []))
                ++ "-ac.patch".data),
              GitCall.applyPatch ((TMP_PATCH_DIR ++ '/' ::
                sha1 ((classifyHunks fileDiff answers).file ++ s.timestamps.headD []))
                ++ "-or.patch".data)] }, fun rest => ?_, ?_⟩
  · rw [show processFiles G sha1 ((fileDiff, answers) :: rest) s =
      (match processFileDiff G sha1 fileDiff answers s with
       | Except.ok s' => processFiles G sha1 rest s'
       | Except.error s' => Except.error s') from rfl, hrun]
  · show getFileCache T (sha1 ((classifyHunks fileDiff answers).file ++
      s.timestamps.headD [])) ≠ none
    rw [hget]
    simp

/-- Witness for C2's amended theorem at the concrete failing run. -/
theorem C2_abort_witness :
    ∃ s', (∀ rest, processFiles witnessGit (fun s => s)
        ((witnessFile, [true, false]) :: rest) witnessState = Except.error s') ∧
      getFileCache (s'.instanceVar.getD [])
        ((fun s => s) ((classifyHunks witnessFile [true, false]).file ++
          witnessState.timestamps.headD [])) ≠ none :=
  C2_abort_after_recovery witnessGit (fun s => s) witnessFile [true, false]
    witnessState 1 (by decide) (by decide) (by decide)

/-- C8: for a file whose accepted list is empty after the per-hunk
classification loop, the orchestrator creates no cache entry and issues
no git call — the state is returned untouched — and the loop proceeds
directly to the remaining files. -/
theorem C8_empty_acceptance_skips {Tree : Type} (G : ExtGit Tree) (sha1 : Str → Str)
    (fileDiff : DiffOutputFile) (answers : List Bool) (s : OrchState Tree)
    (rest : List (DiffOutputFile × List Bool))
    (hacc : (classifyHunks fileDiff answers).acceptedHunks = []) :
    processFileDiff G sha1 fileDiff answers s = Except.ok s ∧
    processFiles G sha1 ((fileDiff, answers) :: rest) s = processFiles G sha1 rest s := by
  have h1 : processFileDiff G sha1 fileDiff answers s = Except.ok s := by
    simp only [processFileDiff, hacc]
    rfl
  refine ⟨h1, ?_⟩
  rw [show processFiles G sha1 ((fileDiff, answers) :: rest) s =
    (match processFileDiff G sha1 fileDiff answers s with
     | Except.ok s' => processFiles G sha1 rest s'
     | Except.error s' => Except.error s') from rfl, h1]

/-- Witness for C8: the operator rejects both hunks. -/
theorem C8_empty_witness :
    processFileDiff witnessGit (fun s => s) witnessFile [false, false] witnessState =
      Except.ok witnessState ∧
    processFiles witnessGit (fun s => s)
        ((witnessFile, [false, false]) :: [(witnessFile, [true, true])]) witnessState =
      processFiles witnessGit (fun s => s) [(witnessFile, [true, true])] witnessState :=
  C8_empty_acceptance_skips witnessGit (fun s => s) witnessFile [false, false]
    witnessState [(witnessFile, [true, true])] (by decide)

end Taskgit
